import Mathlib

/-! ## Verification of the draftly markdown engine

A shallow embedding, in Lean 4, of the parts of the draftly repository that
the specification's claims are about:

* the table engine (`parseTableMarkdown` / `formatTable`),
* the code-info mini-language parser (`CodePlugin.parseCodeInfo`),
* the inline HTML tag-pairing pass (`HTMLPlugin.buildDecorations`),
* the selection overlap tests (`cursorInRange` / `selectionOverlapsRange`),
* the static preview renderer (`PreviewRenderer`, `preview`, the preview
  context's `sanitize`),
* the decoration rebuild driver (`buildDecorations` in `view-plugin.ts`).

JavaScript strings are modelled as `Str := List Char`; JS `Array` values as
`List`; fallible / exception-raising callbacks return their result paired
with an explicit "threw" flag.  External collaborators (the incremental
markdown parser, DOMPurify) appear as opaque function parameters.
-/

namespace Draftly

/-- JavaScript strings, modelled as lists of characters. -/
abbrev Str := List Char

/-- Coerce a Lean string literal to the model type. -/
def str (s : String) : Str := s.data

/-- The ECMAScript whitespace set recognised by `String.prototype.trim`
(WhiteSpace ∪ LineTerminator). -/
def isWs (c : Char) : Bool :=
  c = ' ' || c = '\t' || c = '\n' || c = '\x0b' || c = '\x0c' || c = '\r' ||
  c = ' ' || c = ' ' ||
  ((' ' : Char) ≤ c && c ≤ ' ') ||
  c = ' ' || c = ' ' || c = ' ' || c = ' ' ||
  c = '　' || c = '﻿'

/-- JS `String.prototype.trimStart`. -/
def trimStart (s : Str) : Str := s.dropWhile isWs

/-- JS `String.prototype.trimEnd`. -/
def trimEnd (s : Str) : Str := (s.reverse.dropWhile isWs).reverse

/-- JS `String.prototype.trim`. -/
def trim (s : Str) : Str := trimEnd (trimStart s)

/-- JS `String.prototype.split` with a single-character separator
(`"".split(sep)` gives `[""]`). -/
def splitChar (sep : Char) : Str → List Str
  | [] => [[]]
  | c :: rest =>
    match splitChar sep rest with
    | [] => [[]]
    | h :: t => if c = sep then [] :: h :: t else (c :: h) :: t

/-- Join a list of strings with a separator (JS `Array.prototype.join`). -/
def joinSep (sep : Str) : List Str → Str
  | [] => []
  | [x] => x
  | x :: rest => x ++ sep ++ joinSep sep rest

/-- JS `Array.prototype.map((x, i) => ...)`, general start index. -/
def mapIdxFrom (f : Nat → α → β) : Nat → List α → List β
  | _, [] => []
  | i, a :: as => f i a :: mapIdxFrom f (i + 1) as

/-- JS `Array.prototype.map((x, i) => ...)`. -/
def mapIdx' (f : Nat → α → β) (l : List α) : List β := mapIdxFrom f 0 l

/-- JS `doc.slice(from, to)` / CodeMirror `sliceDoc`. -/
def sliceDoc (doc : Str) (f t : Nat) : Str := (doc.drop f).take (t - f)

/-- JS `s.replace(/c/g, rep)` for a single-character pattern. -/
def replAll (c : Char) (rep : Str) : Str → Str
  | [] => []
  | x :: rest => (if x = c then rep else [x]) ++ replAll c rep rest

/-- `escapeHtml` from `preview/default-renderers.ts`: five sequential global
replacements, ampersand first. -/
def escapeHtml (text : Str) : Str :=
  replAll '\'' (str "&#39;") <|
    replAll '"' (str "&quot;") <|
      replAll '>' (str "&gt;") <|
        replAll '<' (str "&lt;") <|
          replAll '&' (str "&amp;") text

/-! ## Table engine (`TablePlugin`, table utilities) -/

/-- Column alignment parsed from the delimiter row. -/
inductive Alignment where
  | left
  | center
  | right
deriving DecidableEq, Repr

/-- Parsed table structure (`ParsedTable` in the table plugin). -/
structure ParsedTable where
  headers : List Str
  alignments : List Alignment
  rows : List (List Str)
deriving DecidableEq, Repr

/-- `parseAlignment`: alignment of a delimiter cell (`:---:`, `---:`, `:---`,
`---`). -/
def parseAlignment (cell : Str) : Alignment :=
  let t := trim cell
  let l := t.head? = some ':'
  let r := t.getLast? = some ':'
  if l ∧ r then .center
  else if r then .right
  else .left

/-- The cell splitter local to `parseTableMarkdown`: trim the line, strip one
leading and one trailing pipe, split on pipes, trim every cell. -/
def parseCells (line : Str) : List Str :=
  let t := trim line
  let t1 := if t.head? = some '|' then t.tail else t
  let t2 := if t1.getLast? = some '|' then t1.dropLast else t1
  (splitChar '|' t2).map trim

/-- The delimiter-row test `/^:?-+:?$/.test(c.trim())`: after trimming, an
optional leading colon, at least one dash, an optional trailing colon. -/
def isDelimCell (cell : Str) : Bool :=
  let t := trim cell
  let t1 := if t.head? = some ':' then t.tail else t
  let t2 := if t1.getLast? = some ':' then t1.dropLast else t1
  decide (t2 ≠ []) && t2.all (· = '-')

/-- `parseTableMarkdown`: split into non-empty lines, read the header row and
the delimiter row, validate the delimiter row, collect the remaining lines as
data rows. -/
def parseTableMarkdown (markdown : Str) : Option ParsedTable :=
  let lines := (splitChar '\n' markdown).filter (fun l => decide (trim l ≠ []))
  if lines.length < 2 then none
  else
    let headers := parseCells (lines.getD 0 [])
    let delimiterCells := parseCells (lines.getD 1 [])
    if delimiterCells.all isDelimCell then
      some ⟨headers, delimiterCells.map parseAlignment, (lines.drop 2).map parseCells⟩
    else none

/-- `Math.max(headers.length, ...rows.map(r => r.length))`. -/
def colCountOf (p : ParsedTable) : Nat :=
  p.rows.foldl (fun m r => max m r.length) p.headers.length

/-- Per-column content widths, floored at 3 for the delimiter row. -/
def colWidthsOf (p : ParsedTable) : List Nat :=
  (List.range (colCountOf p)).map fun c =>
    let maxW := p.rows.foldl (fun m row => max m (row.getD c []).length)
      (p.headers.getD c []).length
    max maxW 3

/-- `padCell`: pad one cell to its column width according to the column
alignment (center puts the extra space on the right when odd). -/
def padCell (widths : List Nat) (aligns : List Alignment) (text : Str) (i : Nat) : Str :=
  let width := widths.getD i 3
  let align := aligns.getD i .left
  if width ≤ text.length then text
  else
    let padding := width - text.length
    match align with
    | .center =>
      let leftPad := padding / 2
      List.replicate leftPad ' ' ++ text ++ List.replicate (padding - leftPad) ' '
    | .right => List.replicate padding ' ' ++ text
    | .left => text ++ List.replicate padding ' '

/-- `buildDelimiter`: rebuild one delimiter cell from the column width and
alignment (`slice(1,-1)` ≡ `tail.dropLast`, `slice(0,-1)` ≡ `dropLast`). -/
def buildDelimiter (widths : List Nat) (aligns : List Alignment) (i : Nat) : Str :=
  let width := widths.getD i 3
  let align := aligns.getD i .left
  let dashes : Str := List.replicate width '-'
  match align with
  | .center => ':' :: (dashes.tail.dropLast ++ [':'])
  | .right => dashes.dropLast ++ [':']
  | .left => dashes

/-- `"| " + cells.join(" | ") + " |"`. -/
def mkTableLine (cells : List Str) : Str :=
  str "| " ++ joinSep (str " | ") cells ++ str " |"

/-- The body of `formatTable` after a successful parse. -/
def formatParsed (p : ParsedTable) : Str :=
  let colCount := colCountOf p
  let widths := colWidthsOf p
  let headerLine :=
    mkTableLine (mapIdx' (fun i h => padCell widths p.alignments h i) p.headers)
  let delimiterLine :=
    mkTableLine ((List.range colCount).map (buildDelimiter widths p.alignments))
  let dataLines := p.rows.map fun row =>
    mkTableLine ((List.range colCount).map fun i =>
      padCell widths p.alignments (row.getD i []) i)
  joinSep (str "\n") (headerLine :: delimiterLine :: dataLines)

/-- `formatTable`: reformat a table, returning the input unchanged when it is
not a table. -/
def formatTable (markdown : Str) : Str :=
  match parseTableMarkdown markdown with
  | none => markdown
  | some p => formatParsed p

/-- The padded header cells of `formatParsed` (names the intermediate value
`headers.map((h, i) => padCell(h, i))`). -/
def fpHeaderCells (p : ParsedTable) : List Str :=
  mapIdx' (fun i h => padCell (colWidthsOf p) p.alignments h i) p.headers

/-- The rebuilt delimiter cells of `formatParsed`. -/
def fpDelimCells (p : ParsedTable) : List Str :=
  (List.range (colCountOf p)).map (buildDelimiter (colWidthsOf p) p.alignments)

/-- The padded data cells of one row of `formatParsed`. -/
def fpRowCells (p : ParsedTable) (row : List Str) : List Str :=
  (List.range (colCountOf p)).map fun i =>
    padCell (colWidthsOf p) p.alignments (row.getD i []) i

/-- Invariants of every table produced by `parseTableMarkdown`: at least one
header cell, and every cell trimmed and free of pipes and newlines. -/
def tableInv (p : ParsedTable) : Prop :=
  p.headers ≠ [] ∧
  (∀ c ∈ p.headers, trim c = c ∧ '|' ∉ c ∧ '\n' ∉ c) ∧
  (∀ r ∈ p.rows, ∀ c ∈ r, trim c = c ∧ '|' ∉ c ∧ '\n' ∉ c)

/-- The table produced by re-parsing `formatParsed p`: headers unchanged,
alignments truncated/extended to the column count (missing columns default to
left), every row padded with empty cells to the column count.  (Defined for
the idempotence proof; not part of the source.) -/
def extendParsed (p : ParsedTable) : ParsedTable :=
  ⟨p.headers,
   (List.range (colCountOf p)).map (fun i => p.alignments.getD i .left),
   p.rows.map (fun row => (List.range (colCountOf p)).map (fun i => row.getD i []))⟩

/-! ## Selection state and overlap tests (`editor/utils.ts`) -/

/-- One selection range of the host editor state. -/
structure SelRange where
  start : Nat
  stop : Nat
deriving DecidableEq, Repr

/-- The host's selection: an ordered set of ranges with a designated main
range. -/
structure Selection where
  ranges : List SelRange
  mainIdx : Nat
deriving DecidableEq, Repr

/-- `view.state.selection.main`. -/
def Selection.main (sel : Selection) : SelRange :=
  sel.ranges.getD sel.mainIdx ⟨0, 0⟩

/-- `cursorInRange` (`editor/utils.ts:79`): overlap test against the main
selection range only. -/
def cursorInRange (sel : Selection) (f t : Nat) : Bool :=
  sel.main.start ≤ t && f ≤ sel.main.stop

/-- `selectionOverlapsRange` (`editor/utils.ts:87`): overlap test against
every selection range. -/
def selectionOverlapsRange (sel : Selection) (f t : Nat) : Bool :=
  sel.ranges.any fun r => r.start ≤ t && f ≤ r.stop

/-! ## Inline HTML tag pairing (`HTMLPlugin.buildDecorations`) -/

/-- A scanned HTML tag token (`HTMLTagInfo`). -/
structure TagInfo where
  start : Nat
  stop : Nat
  tagName : Str
  isClosing : Bool
  isSelfClosing : Bool
deriving DecidableEq, Repr

/-- A complete inline HTML element (`InlineHTMLElement`). -/
structure InlineElem where
  start : Nat
  stop : Nat
  content : Str
deriving DecidableEq, Repr

/-- The decorations that the claims inspect: range marks by class name and
range-replacing widgets. -/
inductive Deco where
  | mark (cls : Str) (f t : Nat)
  | widget (f t : Nat) (content : Str)
deriving DecidableEq, Repr

/-- `\s` of the tag-parsing regex. -/
def isRegexSpace (c : Char) : Bool := isWs c

/-- ASCII letter test for the tag-name start `[a-zA-Z]`. -/
def isAsciiAlpha (c : Char) : Bool :=
  ('a' ≤ c && c ≤ 'z') || ('A' ≤ c && c ≤ 'Z')

/-- Tag-name continuation `[a-zA-Z0-9-]`. -/
def isTagNameChar (c : Char) : Bool :=
  isAsciiAlpha c || ('0' ≤ c && c ≤ '9') || c = '-'

/-- ASCII lower-casing, as `String.prototype.toLowerCase` acts on tag
names. -/
def toLowerStr (s : Str) : Str := s.map Char.toLower

/-- The HTML void elements treated as self-closing. -/
def voidElements : List Str :=
  [str "br", str "hr", str "img", str "input", str "meta", str "link",
   str "area", str "base", str "col", str "embed", str "source",
   str "track", str "wbr"]

/-- `parseHTMLTag`: match `^<\s*(\/?)([a-zA-Z][a-zA-Z0-9-]*)[^>]*(\/?)>$`
against a token's text.  The match requires the single `>` to be the final
character; because `[^>]*` is greedy the third capture group is always empty,
so the self-closing flag reduces to membership in the void-element list. -/
def parseHTMLTag (content : Str) : Option (Str × Bool × Bool) :=
  match content with
  | '<' :: rest =>
    let rest1 := rest.dropWhile isRegexSpace
    let (isClosing, rest2) :=
      match rest1 with
      | '/' :: r => (true, r)
      | _ => (false, rest1)
    match rest2.head? with
    | some c =>
      if isAsciiAlpha c then
        let name := rest2.takeWhile isTagNameChar
        let after := rest2.dropWhile isTagNameChar
        if after.getLast? = some '>' ∧ '>' ∉ after.dropLast then
          let tagName := toLowerStr name
          some (tagName, isClosing, voidElements.contains tagName)
        else none
      else none
    | none => none
  | _ => none

/-- End position of the document line containing `pos`
(`view.state.doc.lineAt(pos).to`). -/
def lineToAt (doc : Str) (pos : Nat) : Nat :=
  pos + ((doc.drop pos).takeWhile (· ≠ '\n')).length

/-- The forward search for a matching close tag, walking a token-list suffix
and keeping a same-name nesting depth; `j` is the absolute index of the
suffix head.  The search stops (without a match) at the first token past
`lineEnd`. -/
def searchCloseAux (name : Str) (lineEnd : Nat) :
    List TagInfo → Nat → Nat → Option Nat
  | [], _, _ => none
  | tag :: rest, j, depth =>
    if lineEnd < tag.start then none
    else if tag.tagName = name then
      if tag.isClosing then
        if depth = 1 then some j
        else searchCloseAux name lineEnd rest (j + 1) (depth - 1)
      else if !tag.isSelfClosing then searchCloseAux name lineEnd rest (j + 1) (depth + 1)
      else searchCloseAux name lineEnd rest (j + 1) depth
    else searchCloseAux name lineEnd rest (j + 1) depth

/-- The close-tag search of the pairing loop, from absolute token index
`j`. -/
def searchClose (tags : List TagInfo) (name : Str) (lineEnd : Nat)
    (j : Nat) (depth : Nat) : Option Nat :=
  searchCloseAux name lineEnd (tags.drop j) j depth

/-- State of the pairing loop: elements found so far and the set of consumed
token indices (`usedTags`). -/
structure PairState where
  elems : List InlineElem
  used : List Nat
deriving DecidableEq, Repr

/-- One iteration of the pairing loop at token index `i`. -/
def pairStep (doc : Str) (tags : List TagInfo) (st : PairState) (i : Nat) : PairState :=
  if st.used.contains i then st
  else
    match tags.get? i with
    | none => st
    | some openTag =>
      if openTag.isClosing then st
      else if openTag.isSelfClosing then
        { elems := st.elems ++ [⟨openTag.start, openTag.stop, sliceDoc doc openTag.start openTag.stop⟩],
          used := st.used ++ [i] }
      else
        match searchClose tags openTag.tagName (lineToAt doc openTag.start) (i + 1) 1 with
        | none => st
        | some j =>
          match tags.get? j with
          | none => st
          | some closeTag =>
            { elems := st.elems ++ [⟨openTag.start, closeTag.stop, sliceDoc doc openTag.start closeTag.stop⟩],
              used := st.used ++ (List.range' i (j - i + 1)) }

/-- The pairing loop over all token indices. -/
def collectElements (doc : Str) (tags : List TagInfo) : PairState :=
  (List.range tags.length).foldl (pairStep doc tags) ⟨[], []⟩

/-- Overlap filtering: scan the elements sorted by start and keep only those
starting at or after the previous kept element's end (`lastEnd` starts at
`-1`). -/
def filterOverlapsFrom (lastEnd : Int) : List InlineElem → List InlineElem
  | [] => []
  | e :: rest =>
    if lastEnd ≤ (e.start : Int) then e :: filterOverlapsFrom (e.stop : Int) rest
    else filterOverlapsFrom lastEnd rest

/-- Stable insertion by start position, modelling the stable
`Array.prototype.sort((a, b) => a.from - b.from)`. -/
def insertByStart (e : InlineElem) : List InlineElem → List InlineElem
  | [] => [e]
  | x :: xs => if e.start ≤ x.start then e :: x :: xs else x :: insertByStart e xs

/-- Stable sort of elements by start position. -/
def sortByStart : List InlineElem → List InlineElem
  | [] => []
  | x :: xs => insertByStart x (sortByStart xs)

/-- The CSS class mark applied to raw tag syntax. -/
def htmlTagClass : Str := str "cm-draftly-html-tag"

/-- Decorations emitted for one kept inline element: with the main cursor in
range, style every tag inside the element; otherwise replace the element
with a rendered widget. -/
def htmlElemDecos (tags : List TagInfo) (sel : Selection) (e : InlineElem) : List Deco :=
  if cursorInRange sel e.start e.stop then
    (tags.filter (fun tag => e.start ≤ tag.start && tag.stop ≤ e.stop)).map
      (fun tag => Deco.mark htmlTagClass tag.start tag.stop)
  else
    [Deco.widget e.start e.stop e.content]

/-- The inline-tag portion of `HTMLPlugin.buildDecorations`: pair tags into
elements, filter overlaps, decorate each kept element, then style every
unconsumed (orphan) tag. -/
def htmlInlineDecos (doc : Str) (tags : List TagInfo) (sel : Selection) : List Deco :=
  let st := collectElements doc tags
  let filtered := filterOverlapsFrom (-1) (sortByStart st.elems)
  (filtered.flatMap (htmlElemDecos tags sel)) ++
    ((List.range tags.length).filter (fun i => !st.used.contains i)).map
      (fun i =>
        match tags.get? i with
        | some tag => Deco.mark htmlTagClass tag.start tag.stop
        | none => Deco.mark htmlTagClass 0 0)

/-- Scan a document for tag tokens at given positions: build the `TagInfo`
list from token ranges via `parseHTMLTag`, dropping unparsable tokens, as the
tree-iteration loop does. -/
def scanTags (doc : Str) (ranges : List (Nat × Nat)) : List TagInfo :=
  ranges.foldr
    (fun (r : Nat × Nat) acc =>
      match parseHTMLTag (sliceDoc doc r.1 r.2) with
      | some (name, closing, selfClosing) => ⟨r.1, r.2, name, closing, selfClosing⟩ :: acc
      | none => acc)
    []

/-! ## Code-info mini-language (`CodePlugin.parseCodeInfo`) -/

/-- `\w` of the code-info regexes: `[A-Za-z0-9_]`. -/
def isWordChar (c : Char) : Bool :=
  isAsciiAlpha c || ('0' ≤ c && c ≤ '9') || c = '_'

/-- ASCII digit test `\d`. -/
def isDigitChar (c : Char) : Bool := '0' ≤ c && c ≤ '9'

/-- `parseInt(s, 10)` on a digit string. -/
def natOfDigits (s : Str) : Nat :=
  s.foldl (fun n c => n * 10 + (c.toNat - '0'.toNat)) 0

/-- A text/regex highlight spec (`TextHighlight`). -/
structure TextHighlight where
  pattern : Str
  instances : Option (List Nat) := none
deriving DecidableEq, Repr

/-- The `lineNumbers` property: the bare flag or a start number. -/
inductive LineNumbersVal where
  | flag
  | startAt (n : Nat)
deriving DecidableEq, Repr

/-- Properties extracted from a CodeInfo string (`CodeBlockProperties`);
absent optional keys are `none` (JS `undefined`). -/
structure CodeBlockProperties where
  language : Str := []
  lineNumbers : Option LineNumbersVal := none
  title : Option Str := none
  caption : Option Str := none
  copy : Option Bool := none
  highlightLines : Option (List Nat) := none
  highlightText : Option (List TextHighlight) := none
deriving DecidableEq, Repr

/-- Attempt the quoted-pair regex `(\w+)="([^"]*)"` at the start of `s`:
on success return the key, the value and the rest of the string. -/
def quotedAt (s : Str) : Option (Str × Str × Str) :=
  let key := s.takeWhile isWordChar
  if key = [] then none
  else
    match s.drop key.length with
    | '=' :: '"' :: rest =>
      let v := rest.takeWhile (· ≠ '"')
      match rest.drop v.length with
      | '"' :: rest' => some (key, v, rest')
      | _ => none
    | _ => none

/-- Global scan-and-strip of `(\w+)="([^"]*)"`: collect the matches left to
right and return the input with every match removed, as the exec loop
followed by `replace(quotedPattern, "")` does.  Fuel-driven recursion; a call
always consumes at least one character, so `s.length` fuel is exact. -/
def quotedScan : Nat → Str → List (Str × Str) × Str
  | 0, s => ([], s)
  | _ + 1, [] => ([], [])
  | fuel + 1, c :: rest =>
    match quotedAt (c :: rest) with
    | some (k, v, r) =>
      let (ms, out) := quotedScan fuel r
      ((k, v) :: ms, out)
    | none =>
      let (ms, out) := quotedScan fuel rest
      (ms, c :: out)

/-- Leftmost occurrence of `pat` as a substring of `s` (JS
`String.prototype.indexOf`). -/
def findSub (pat : Str) : Str → Option Nat
  | [] => if pat = [] then some 0 else none
  | c :: rest =>
    if pat.isPrefixOf (c :: rest) then some 0
    else (findSub pat rest).map (· + 1)

/-- Leftmost match position of `/\bcopy\b/`: the literal `copy` with a
non-word character (or the string edge) on both sides. -/
def findWordCopy : Str → Option Nat := go true
where
  /-- `atBoundary` records whether the previous character was a non-word
  character (true at the string start). -/
  go (atBoundary : Bool) : Str → Option Nat
    | [] => none
    | c :: rest =>
      if atBoundary && (str "copy").isPrefixOf (c :: rest) &&
          ((c :: rest).drop 4).head?.all (fun d => !isWordChar d) then
        some 0
      else ((go (!isWordChar c) rest).map (· + 1))

/-- Leftmost match of `/\{([^}]+)\}/`: returns the match position and the
brace contents. -/
def findBraceGroup : Str → Option (Nat × Str)
  | [] => none
  | '{' :: rest =>
    let inner := rest.takeWhile (· ≠ '}')
    if inner ≠ [] ∧ (rest.drop inner.length).head? = some '}' then
      some (0, inner)
    else (findBraceGroup rest).map (fun (p, i) => (p + 1, i))
  | _ :: rest => (findBraceGroup rest).map (fun (p, i) => (p + 1, i))

/-- Expand one comma-separated part of a line-highlight set: a trimmed
`a-b` range expands to the inclusive range, a trimmed bare number to itself,
anything else to nothing. -/
def expandTrimmedPart (part : Str) : List Nat :=
  let t := trim part
  let d1 := t.takeWhile isDigitChar
  match d1, t.drop d1.length with
  | _ :: _, '-' :: rest =>
    let d2 := rest.takeWhile isDigitChar
    if d2 ≠ [] ∧ rest.drop d2.length = [] then
      (List.range' (natOfDigits d1) (natOfDigits d2 + 1 - natOfDigits d1))
    else []
  | _ :: _, [] => [natOfDigits d1]
  | _, _ => []

/-- Expand one instance-selector part (`part.match(/^(\d+)-(\d+)$/)` without
trimming, else a bare number). -/
def expandRawPart (part : Str) : List Nat :=
  let d1 := part.takeWhile isDigitChar
  match d1, part.drop d1.length with
  | _ :: _, '-' :: rest =>
    let d2 := rest.takeWhile isDigitChar
    if d2 ≠ [] ∧ rest.drop d2.length = [] then
      (List.range' (natOfDigits d1) (natOfDigits d2 + 1 - natOfDigits d1))
    else []
  | _ :: _, [] => [natOfDigits d1]
  | _, _ => []

/-- Greedy parse of the optional instance selector
`(\d+(?:-\d+)?(?:,\d+(?:-\d+)?)*)` at the start of `s`: returns the matched
text and the rest. -/
def instancesAt (s : Str) : Str × Str :=
  let d1 := s.takeWhile isDigitChar
  if d1 = [] then ([], s)
  else
    let (seg1, rest1) := withRange d1 (s.drop d1.length)
    let (more, rest2) := go s.length rest1
    (seg1 ++ more, rest2)
where
  /-- Extend a number by an optional `-digits` suffix. -/
  withRange (d : Str) (rest : Str) : Str × Str :=
    match rest with
    | '-' :: r =>
      let d2 := r.takeWhile isDigitChar
      if d2 = [] then (d, rest) else (d ++ '-' :: d2, r.drop d2.length)
    | _ => (d, rest)
  /-- Repeatedly consume `,number(-number)?` groups (fuel-driven). -/
  go : Nat → Str → Str × Str
    | 0, s => ([], s)
    | fuel + 1, ',' :: r =>
      let d := r.takeWhile isDigitChar
      if d = [] then ([], ',' :: r)
      else
        let (seg, rest1) := withRange d (r.drop d.length)
        let (more, rest2) := go fuel rest1
        (',' :: seg ++ more, rest2)
    | _ + 1, s => ([], s)

/-- Global scan of `/\/([^/]+)\/(?:(\d+(?:-\d+)?(?:,\d+(?:-\d+)?)*))?/`:
collect every text-highlight spec left to right (fuel-driven). -/
def textHlScan : Nat → Str → List TextHighlight
  | 0, _ => []
  | _ + 1, [] => []
  | fuel + 1, '/' :: rest =>
    let pattern := rest.takeWhile (· ≠ '/')
    if pattern ≠ [] ∧ (rest.drop pattern.length).head? = some '/' then
      let after := rest.drop (pattern.length + 1)
      let (instStr, rest') := instancesAt after
      let instances :=
        if instStr = [] then none
        else
          let parts := (splitChar ',' instStr).map expandRawPart
          let flat := parts.flatten
          if flat ≠ [] then some flat else none
      ⟨pattern, instances⟩ :: textHlScan fuel rest'
    else textHlScan fuel rest
  | fuel + 1, _ :: rest => textHlScan fuel rest

/-- `CodePlugin.parseCodeInfo`: parse a fenced code block's info string into
structured properties by repeated regex scan-and-strip, in the source's fixed
order: language word, quoted pairs, `line-numbers{N}`, `copy`, `{a-b,c}` line
set, repeated `/pattern/i-j` highlight specs. -/
def parseCodeInfo (codeInfo : Str) : CodeBlockProperties :=
  if trim codeInfo = [] then {}
  else
    let remaining := trim codeInfo
    -- language: /^(\w+)/
    let lang := remaining.takeWhile isWordChar
    let language := lang
    let remaining := if lang ≠ [] then trim (remaining.drop lang.length) else remaining
    -- quoted pairs: /(\w+)="([^"]*)"/g, assigned in match order, then stripped
    let (pairs, stripped) := quotedScan remaining.length remaining
    let (title, caption) := pairs.foldl
      (fun (acc : Option Str × Option Str) (kv : Str × Str) =>
        if toLowerStr kv.1 = str "title" then (some kv.2, acc.2)
        else if toLowerStr kv.1 = str "caption" then (acc.1, some kv.2)
        else acc)
      (none, none)
    let remaining := trim stripped
    -- /line-numbers(?:\{(\d+)\})?/, first occurrence, stripped
    let (lineNumbers, remaining) :=
      match findSub (str "line-numbers") remaining with
      | none => ((none : Option LineNumbersVal), remaining)
      | some idx =>
        let after := remaining.drop (idx + 12)
        match after with
        | '{' :: r =>
          let ds := r.takeWhile isDigitChar
          if ds ≠ [] ∧ (r.drop ds.length).head? = some '}' then
            (some (.startAt (natOfDigits ds)),
             trim (remaining.take idx ++ remaining.drop (idx + 12 + 2 + ds.length)))
          else (some .flag, trim (remaining.take idx ++ remaining.drop (idx + 12)))
        | _ => (some .flag, trim (remaining.take idx ++ remaining.drop (idx + 12)))
    -- /\bcopy\b/, first occurrence, stripped
    let (copy, remaining) :=
      match findWordCopy remaining with
      | none => ((none : Option Bool), remaining)
      | some p => (some true, trim (remaining.take p ++ remaining.drop (p + 4)))
    -- /\{([^}]+)\}/, first occurrence, stripped
    let (highlightLines, remaining) :=
      match findBraceGroup remaining with
      | none => ((none : Option (List Nat)), remaining)
      | some (p, inner) =>
        let lines := ((splitChar ',' inner).map expandTrimmedPart).flatten
        (if lines ≠ [] then some lines else none,
         trim (remaining.take p ++ remaining.drop (p + 2 + inner.length)))
    -- text highlights, global, not stripped
    let hls := textHlScan remaining.length remaining
    let highlightText := if hls ≠ [] then some hls else none
    { language := language, lineNumbers := lineNumbers, title := title,
      caption := caption, copy := copy, highlightLines := highlightLines,
      highlightText := highlightText }

/-! ## Static preview renderer (`preview/renderer.ts`, `preview/preview.ts`,
`preview/context.ts`) -/

/-- A parsed-tree node: type name, byte range, ordered children. -/
inductive PNode where
  | node (name : Str) (start stop : Nat) (children : List PNode)
deriving Repr

/-- Node type name. -/
def PNode.name : PNode → Str
  | .node n _ _ _ => n

/-- Node start offset. -/
def PNode.start : PNode → Nat
  | .node _ s _ _ => s

/-- Node end offset. -/
def PNode.stop : PNode → Nat
  | .node _ _ t _ => t

/-- Node children. -/
def PNode.children : PNode → List PNode
  | .node _ _ _ cs => cs

/-- A runtime value produced by a `renderToHTML` call as the synchronous
renderer sees it: a markup string, or a pending Promise object.  An `async`
renderToHTML (the Mermaid plugin's, `mermaid-plugin.ts:345`) always returns
a Promise and never the `null` sentinel synchronously. -/
inductive JSVal where
  | str (s : Str)
  | promise
deriving DecidableEq, Repr

/-- JavaScript string coercion as applied by `+=` and template literals:
strings pass through, a pending Promise stringifies to the
`[object Promise]` placeholder. -/
def jsToString : JSVal → Str
  | .str s => s
  | .promise => str "[object Promise]"

/-- A plugin's `renderToHTML` capability: given the node and its rendered
children, return markup, a pending Promise (async plugin), or the
"not handled" sentinel (`null` ↦ `none`). -/
def PluginR := PNode → Str → Option JSVal

/-- A plugin whose `renderToHTML` is an `async` function, as a synchronous
caller observes it: every call returns a pending Promise. -/
def asyncRenderPlugin : PluginR := fun _ _ => some .promise

/-- The built-in default-renderer table from `preview/default-renderers.ts`:
`Document` renders its children, `Paragraph` wraps them in `<p>`. -/
def defaultRenderers (name : Str) : Option (Str → Str) :=
  if name = str "Document" then some (fun children => children)
  else if name = str "Paragraph" then
    some (fun children => str "<p>" ++ children ++ str "</p>\n")
  else none

/-- The first plugin result that is not the "not handled" sentinel
(`renderer.ts:83` — `result !== null`, so a returned Promise also wins). -/
def findFirstRender (plugins : List PluginR) (n : PNode) (children : Str) : Option JSVal :=
  match plugins with
  | [] => none
  | p :: rest =>
    match p n children with
    | some r => some r
    | none => findFirstRender rest n children

mutual

/-- `PreviewRenderer.renderNode`: try plugins in order, then the default
table, then recurse into children, and for a leaf with no renderer return the
sliced document text.  The declared return type is `string`, but an async
plugin's Promise is returned untouched. -/
def renderNode (plugins : List PluginR) (doc : Str) : PNode → JSVal
  | .node name start stop children =>
    let childrenHtml := renderChildrenList plugins doc start stop children
    match findFirstRender plugins (.node name start stop children) childrenHtml with
    | some r => r
    | none =>
      match defaultRenderers name with
      | some render => .str (render childrenHtml)
      | none =>
        match children with
        | [] => .str (sliceDoc doc start stop)
        | _ :: _ => .str childrenHtml

/-- `PreviewRenderer.renderChildren`: concatenate, in document order, the
escaped literal text in gaps between children and the recursive render of
each child; `result += this.renderNode(child)` string-coerces the child's
value.  `pos` tracks the current position, `stop` is the parent's end. -/
def renderChildrenList (plugins : List PluginR) (doc : Str) (pos stop : Nat) :
    List PNode → Str
  | [] => if pos < stop then escapeHtml (sliceDoc doc pos stop) else []
  | c :: rest =>
    (if pos < c.start then escapeHtml (sliceDoc doc pos c.start) else []) ++
      jsToString (renderNode plugins doc c) ++
      renderChildrenList plugins doc c.stop stop rest

end

/-- `PreviewRenderer.render`: parse the document with the (external) parser
and render from the root.  The parser is an opaque parameter. -/
def PreviewRenderer_render (parse : Str → PNode) (plugins : List PluginR)
    (doc : Str) : JSVal :=
  renderNode plugins doc (parse doc)

/-- The `preview` entry point: render the markdown and wrap the result in a
single root tag carrying the configured class (`wrapperClass` defaults to
`"draftly-preview"`, `wrapperTag` to `"article"`; an empty class suppresses
the attribute).  The template literal string-coerces `content`, so a pending
Promise from the renderer is spliced as `[object Promise]`. -/
def preview (parse : Str → PNode) (plugins : List PluginR) (markdown : Str)
    (wrapperClass wrapperTag : Option Str) : Str :=
  let cls := wrapperClass.getD (str "draftly-preview")
  let tag := wrapperTag.getD (str "article")
  let content := jsToString (PreviewRenderer_render parse plugins markdown)
  let classAttr := if cls ≠ [] then str " class=\"" ++ cls ++ ['"'] else []
  ['<'] ++ tag ++ classAttr ++ ['>', '\n'] ++ content ++ ['<', '/'] ++ tag ++ ['>']

/-- The `sanitize` closure from `createPreviewContext`: the HTML is passed
through untouched when the sanitize option is off, DOMPurify (opaque) is
applied when a browser `window` exists, and server-side the HTML is returned
as-is. -/
def contextSanitize (sanitizeHtml : Bool) (windowExists : Bool)
    (domPurify : Str → Str) (html : Str) : Str :=
  if !sanitizeHtml then html
  else if windowExists then domPurify html
  else html

/-! ## Decoration rebuild driver (`editor/view-plugin.ts`) -/

/-- One contributed decoration range: position, tie-break side, opaque
payload. -/
structure Ann where
  start : Nat
  startSide : Int
  payload : Nat
deriving DecidableEq, Repr

/-- A decoration plugin as the driver sees it: a priority, and a
`buildDecorations` callback that mutates the shared decoration array and may
throw.  `run` returns the array contents after the call together with a flag
recording whether an exception was raised; pushes made before a throw remain
in the array. -/
structure DecoPlugin where
  decorationPriority : Int
  run : List Ann → List Ann × Bool

/-- Stable insertion by `decorationPriority`, modelling the stable
`[...plugins].sort((a, b) => a.decorationPriority - b.decorationPriority)`. -/
def insertByPrio (p : DecoPlugin) : List DecoPlugin → List DecoPlugin
  | [] => [p]
  | x :: xs =>
    if p.decorationPriority ≤ x.decorationPriority then p :: x :: xs
    else x :: insertByPrio p xs

/-- Stable sort of plugins by priority. -/
def sortByPrio : List DecoPlugin → List DecoPlugin
  | [] => []
  | x :: xs => insertByPrio x (sortByPrio xs)

/-- Ordering of collected decorations:
`(a, b) => a.from - b.from || a.value.startSide - b.value.startSide`. -/
def annLE (a b : Ann) : Bool :=
  a.start < b.start || (a.start = b.start && a.startSide ≤ b.startSide)

/-- Stable insertion of a decoration by `(from, startSide)`. -/
def insertAnn (a : Ann) : List Ann → List Ann
  | [] => [a]
  | x :: xs => if annLE a x then a :: x :: xs else x :: insertAnn a xs

/-- Stable sort of the collected decorations. -/
def sortAnns : List Ann → List Ann
  | [] => []
  | x :: xs => insertAnn x (sortAnns xs)

/-- `buildDecorations` from `view-plugin.ts`: sort the plugins by priority,
invoke each one's `buildDecorations` inside a `try`/`catch` that swallows the
exception flag (keeping whatever the plugin already pushed), then sort the
collected decorations. -/
def buildDecorationsModel (ps : List DecoPlugin) : List Ann :=
  sortAnns ((sortByPrio ps).foldl (fun s p => (p.run s).1) [])

/-- The same plugin with its exception suppressed: identical pushes, no
throw. -/
def suppressThrow (p : DecoPlugin) : DecoPlugin :=
  ⟨p.decorationPriority, fun s => ((p.run s).1, false)⟩

/-- A concrete plugin that pushes one decoration and then throws. -/
def pushThenThrow : DecoPlugin :=
  ⟨0, fun s => (s ++ [⟨0, 0, 0⟩], true)⟩

/-! ## Spec-side comparison definitions and concrete example inputs -/

/-- Modelled from the spec's words: a delimiter cell "must match `^:?-+:?$`
per cell (after trim)" — an optional leading colon, one or more dashes, an
optional trailing colon. -/
def matchesDelimPattern (t : Str) : Prop :=
  ∃ (a b : Bool) (k : Nat), 1 ≤ k ∧
    t = (if a then [':'] else []) ++ List.replicate k '-' ++ (if b then [':'] else [])

/-- Modelled from the spec's words: "`:` both ends → center, `:` trailing
only → right, else → left", on an already-trimmed cell. -/
def specAlignment (t : Str) : Alignment :=
  if t.head? = some ':' ∧ t.getLast? = some ':' then .center
  else if t.getLast? = some ':' then .right
  else .left

/-- The inline-code fragment of `CodePlugin.buildDecorations`
(`code-plugin.ts:451-464`): always style the inline-code range; hide the
backtick marks exactly when no selection range overlaps the node. -/
def codeInlineDecos (sel : Selection) (f t : Nat) (codeMarks : List (Nat × Nat)) : List Deco :=
  [Deco.mark (str "cm-draftly-code-inline") f t] ++
    (if !selectionOverlapsRange sel f t then
      codeMarks.map (fun m => Deco.mark (str "cm-draftly-code-mark") m.1 m.2)
    else [])

/-- The tag-pairing example input of the spec. -/
def docPaired : Str := str "<b>x<i>y</i>z</b>"

/-- The tag tokens scanned from `docPaired`. -/
def tagsPaired : List TagInfo :=
  scanTags docPaired [(0, 3), (4, 7), (8, 12), (13, 17)]

/-- The orphan-tag example input of the spec. -/
def docOrphan : Str := str "<b>unterminated"

/-- The single tag token scanned from `docOrphan`. -/
def tagsOrphan : List TagInfo := scanTags docOrphan [(0, 3)]

/-- A selection whose main range misses `[0,17]` while a secondary range
overlaps it. -/
def selSecondaryOverlap : Selection := ⟨[⟨20, 21⟩, ⟨5, 6⟩], 0⟩

/-- The task-marker fragment of `ListPlugin.buildDecorations`
(`list-plugin.ts:228,324-345`): `cursorInLine` comes from
`ctx.cursorInRange(line.from, line.to)` — the main selection range only.
With the cursor in the line the raw marker text is styled with the
task-marker class; otherwise the marker is replaced by a checkbox widget
whose checked state is read from the sliced marker text. -/
def taskMarkerDecos (doc : Str) (sel : Selection) (f t lineFrom lineTo : Nat) : List Deco :=
  let text := sliceDoc doc f t
  let isChecked := text.contains 'x' || text.contains 'X'
  if cursorInRange sel lineFrom lineTo then
    [Deco.mark (str "cm-draftly-task-marker") f t]
  else
    [Deco.widget f t (if isChecked then str "checked" else str "unchecked")]

/-- An unmatched open tag nested between a matched pair's tokens: `<c>`
inside `<b>…</b>`. -/
def docNested : Str := str "<b>x<c>y</b>"

/-- The tag tokens scanned from `docNested`: `<b>` at `[0,3)`, `<c>` at
`[4,7)`, `</b>` at `[8,12)`. -/
def tagsNested : List TagInfo := scanTags docNested [(0, 3), (4, 7), (8, 12)]

/-! ## Theorems -/

/-! ### Trimming lemmas -/

theorem trimStart_cons (c : Char) (s : Str) :
    trimStart (c :: s) = if isWs c then trimStart s else c :: s := by
  simp [trimStart, List.dropWhile_cons]

theorem trimStart_replicate_append (k : Nat) (s : Str) :
    trimStart (List.replicate k ' ' ++ s) = trimStart s := by
  induction k with
  | zero => simp
  | succ n ih => simpa [trimStart_cons, isWs] using ih

theorem trimEnd_append_replicate (s : Str) (k : Nat) :
    trimEnd (s ++ List.replicate k ' ') = trimEnd s := by
  unfold trimEnd
  rw [List.reverse_append, List.reverse_replicate]
  rw [show (List.dropWhile isWs (List.replicate k ' ' ++ s.reverse)) =
    List.dropWhile isWs s.reverse from trimStart_replicate_append k s.reverse]

theorem trimStart_nil_of_replicate (k : Nat) :
    trimStart (List.replicate k ' ') = [] := by
  simpa using trimStart_replicate_append k []

theorem trim_append_replicate (s : Str) (k : Nat) :
    trim (s ++ List.replicate k ' ') = trim s := by
  unfold trim
  rcases h : trimStart s with _ | ⟨c, rest⟩
  · have hall : ∀ x ∈ s, isWs x = true := by
      simpa [trimStart, List.dropWhile_eq_nil_iff] using h
    have h2 : trimStart (s ++ List.replicate k ' ') = [] := by
      simp only [trimStart, List.dropWhile_eq_nil_iff]
      intro x hx
      rcases List.mem_append.mp hx with hx | hx
      · exact hall x hx
      · have := List.eq_of_mem_replicate hx
        simp [this, isWs]
    simp [h2]
  · have h2 : trimStart (s ++ List.replicate k ' ') = trimStart s ++ List.replicate k ' ' := by
      simp only [trimStart, List.dropWhile_append]
      rw [show List.dropWhile isWs s = trimStart s from rfl, h]
      simp
    rw [h2, h, trimEnd_append_replicate]

theorem trim_replicate_append (k : Nat) (s : Str) :
    trim (List.replicate k ' ' ++ s) = trim s := by
  unfold trim
  rw [trimStart_replicate_append]

theorem trim_pad (a b : Nat) (s : Str) :
    trim (List.replicate a ' ' ++ s ++ List.replicate b ' ') = trim s := by
  rw [List.append_assoc, trim_replicate_append, trim_append_replicate]

theorem trimStart_eq_self (s : Str) (h : s.head?.all (fun c => !isWs c)) :
    trimStart s = s := by
  cases s with
  | nil => rfl
  | cons c rest =>
    simp only [List.head?_cons, Option.all_some, Bool.not_eq_true'] at h
    simp [trimStart_cons, h]

theorem trimEnd_eq_self (s : Str) (h : s.getLast?.all (fun c => !isWs c)) :
    trimEnd s = s := by
  unfold trimEnd
  rw [show List.dropWhile isWs s.reverse = trimStart s.reverse from rfl,
    trimStart_eq_self s.reverse (by simpa [List.head?_reverse] using h)]
  exact List.reverse_reverse s

theorem trim_eq_self (s : Str) (h1 : s.head?.all (fun c => !isWs c))
    (h2 : s.getLast?.all (fun c => !isWs c)) : trim s = s := by
  unfold trim
  rw [trimStart_eq_self s h1, trimEnd_eq_self s h2]

theorem trimStart_head? (s : Str) :
    (trimStart s).head?.all (fun c => !isWs c) := by
  induction s with
  | nil => rfl
  | cons c rest ih =>
    rw [trimStart_cons]
    by_cases h : isWs c
    · simpa [h] using ih
    · simp [h]

theorem trimEnd_getLast? (s : Str) :
    (trimEnd s).getLast?.all (fun c => !isWs c) := by
  unfold trimEnd
  rw [show ((List.dropWhile isWs s.reverse).reverse : Str).getLast? =
      (List.dropWhile isWs s.reverse).head? from List.getLast?_reverse _]
  exact trimStart_head? s.reverse

theorem trimEnd_head? (s : Str) (c : Char) (h : (trimEnd s).head? = some c) :
    s.head? = some c := by
  have hdecomp : trimEnd s ++ (List.takeWhile isWs s.reverse).reverse = s := by
    unfold trimEnd
    rw [← List.reverse_append, List.takeWhile_append_dropWhile, List.reverse_reverse]
  rw [← hdecomp, List.head?_append, h]
  rfl

theorem trim_head? (s : Str) : (trim s).head?.all (fun c => !isWs c) := by
  unfold trim
  rcases h : (trimEnd (trimStart s)).head? with _ | ⟨c⟩
  · simp [h]
  · have := trimEnd_head? (trimStart s) c h
    have h2 := trimStart_head? s
    rw [this] at h2
    simp_all

theorem trim_getLast? (s : Str) : (trim s).getLast?.all (fun c => !isWs c) :=
  trimEnd_getLast? (trimStart s)

theorem trim_trim (s : Str) : trim (trim s) = trim s :=
  trim_eq_self (trim s) (trim_head? s) (trim_getLast? s)

theorem trim_cons_ne_nil (c : Char) (s : Str) (h : isWs c = false) :
    trim (c :: s) ≠ [] := by
  unfold trim
  rw [trimStart_eq_self (c :: s) (by simp [h])]
  intro habs
  have : ∀ x ∈ (c :: s).reverse, isWs x = true := by
    have : List.dropWhile isWs (c :: s).reverse = [] := by
      simpa [trimEnd] using habs
    simpa [List.dropWhile_eq_nil_iff] using this
  have := this c (by simp)
  simp [h] at this

theorem mem_of_mem_dropWhile {p : Char → Bool} {c : Char} {l : Str}
    (h : c ∈ List.dropWhile p l) : c ∈ l := by
  rw [← List.takeWhile_append_dropWhile (p := p) (l := l)]
  exact List.mem_append_right _ h

theorem mem_of_mem_trim {c : Char} {s : Str} (h : c ∈ trim s) : c ∈ s := by
  unfold trim trimEnd trimStart at h
  have h1 : c ∈ (List.dropWhile isWs s).reverse := mem_of_mem_dropWhile
    (by simpa using h)
  exact mem_of_mem_dropWhile (by simpa using h1)

/-! ### Split/join lemmas -/

theorem splitChar_ne_nil (sep : Char) (s : Str) : splitChar sep s ≠ [] := by
  cases s with
  | nil => simp [splitChar]
  | cons c rest =>
    simp only [splitChar]
    rcases splitChar sep rest with _ | ⟨h, t⟩
    · simp
    · by_cases hc : c = sep
      · simp [hc]
      · simp [hc]

theorem not_mem_of_mem_splitChar {sep : Char} {s piece : Str}
    (h : piece ∈ splitChar sep s) : sep ∉ piece := by
  suffices H : ∀ q, q ∈ splitChar sep s → sep ∉ q from H piece h
  clear h piece
  induction s with
  | nil =>
    intro q hq
    simp only [splitChar, List.mem_singleton] at hq
    simp [hq]
  | cons c rest ih =>
    intro q hq
    simp only [splitChar] at hq
    rcases hsp : splitChar sep rest with _ | ⟨hd, tl⟩
    · exact absurd hsp (splitChar_ne_nil sep rest)
    · rw [hsp] at hq
      by_cases hc : c = sep
      · simp only [hc, if_pos rfl] at hq
        rcases List.mem_cons.mp hq with h | h
        · simp [h]
        · exact ih q (hsp ▸ h)
      · simp only [if_neg hc] at hq
        rcases List.mem_cons.mp hq with h | h
        · subst h
          intro habs
          rcases List.mem_cons.mp habs with habs | habs
          · exact hc habs.symm
          · exact absurd habs (ih hd (hsp ▸ List.mem_cons_self hd tl))
        · exact ih q (hsp ▸ List.mem_cons_of_mem hd h)

theorem mem_of_mem_splitChar {sep c : Char} {s piece : Str}
    (hp : piece ∈ splitChar sep s) (hc : c ∈ piece) : c ∈ s := by
  suffices H : ∀ q, q ∈ splitChar sep s → ∀ d, d ∈ q → d ∈ s from H piece hp c hc
  clear hp hc piece
  induction s with
  | nil =>
    intro q hq d hd
    simp only [splitChar, List.mem_singleton] at hq
    simp [hq] at hd
  | cons e rest ih =>
    intro q hq d hd
    simp only [splitChar] at hq
    rcases hsp : splitChar sep rest with _ | ⟨hd', tl⟩
    · exact absurd hsp (splitChar_ne_nil sep rest)
    · rw [hsp] at hq
      by_cases hes : e = sep
      · simp only [hes, if_pos rfl] at hq
        rcases List.mem_cons.mp hq with h | h
        · simp [h] at hd
        · exact List.mem_cons_of_mem e (ih q (hsp ▸ h) d hd)
      · simp only [if_neg hes] at hq
        rcases List.mem_cons.mp hq with h | h
        · subst h
          rcases List.mem_cons.mp hd with h | h
          · exact h ▸ List.mem_cons_self e rest
          · exact List.mem_cons_of_mem e (ih hd' (hsp ▸ List.mem_cons_self hd' tl) d h)
        · exact List.mem_cons_of_mem e (ih q (hsp ▸ List.mem_cons_of_mem hd' h) d hd)

theorem splitChar_of_not_mem {sep : Char} {s : Str} (h : sep ∉ s) :
    splitChar sep s = [s] := by
  induction s with
  | nil => rfl
  | cons c rest ih =>
    have hc : ¬ c = sep := fun habs => h (habs ▸ List.mem_cons_self c rest)
    have hrest : sep ∉ rest := fun habs => h (List.mem_cons_of_mem c habs)
    simp only [splitChar, ih hrest, if_neg hc]

theorem splitChar_sep_cons (sep : Char) (rest : Str) :
    splitChar sep (sep :: rest) = [] :: splitChar sep rest := by
  simp only [splitChar]
  rcases hsp : splitChar sep rest with _ | ⟨hd, tl⟩
  · exact absurd hsp (splitChar_ne_nil sep rest)
  · simp

theorem splitChar_append_sep {sep : Char} {a : Str} (rest : Str) (h : sep ∉ a) :
    splitChar sep (a ++ sep :: rest) = a :: splitChar sep rest := by
  induction a with
  | nil => simpa using splitChar_sep_cons sep rest
  | cons c a' ih =>
    have hc : ¬ c = sep := fun habs => h (habs ▸ List.mem_cons_self c a')
    have ha' : sep ∉ a' := fun habs => h (List.mem_cons_of_mem c habs)
    show splitChar sep (c :: (a' ++ sep :: rest)) = (c :: a') :: splitChar sep rest
    simp only [splitChar, ih ha', if_neg hc]

theorem splitChar_joinSep {sep : Char} {xs : List Str} (hne : xs ≠ [])
    (h : ∀ x ∈ xs, sep ∉ x) : splitChar sep (joinSep [sep] xs) = xs := by
  induction xs with
  | nil => exact absurd rfl hne
  | cons x rest ih =>
    cases rest with
    | nil => simpa [joinSep] using splitChar_of_not_mem (h x (by simp))
    | cons y t =>
      have hx : sep ∉ x := h x (by simp)
      have hrest : ∀ z ∈ y :: t, sep ∉ z := fun z hz => h z (by simp [hz])
      have : joinSep [sep] (x :: y :: t) = x ++ sep :: joinSep [sep] (y :: t) := by
        simp [joinSep]
      rw [this, splitChar_append_sep _ hx, ih (by simp) hrest]

theorem mem_joinSep {sep : Str} {xs : List Str} {c : Char}
    (h : c ∈ joinSep sep xs) : c ∈ sep ∨ ∃ x ∈ xs, c ∈ x := by
  induction xs with
  | nil => simp [joinSep] at h
  | cons x rest ih =>
    cases rest with
    | nil =>
      simp only [joinSep] at h
      exact Or.inr ⟨x, by simp, h⟩
    | cons y t =>
      simp only [joinSep, List.mem_append] at h
      rcases h with (h | h) | h
      · exact Or.inr ⟨x, by simp, h⟩
      · exact Or.inl h
      · rcases ih h with h | ⟨z, hz, hc⟩
        · exact Or.inl h
        · exact Or.inr ⟨z, by simp [hz], hc⟩

theorem splitChar_spaced {xs : List Str} (hne : xs ≠ [])
    (h : ∀ x ∈ xs, '|' ∉ x) :
    splitChar '|' (' ' :: (joinSep (str " | ") xs ++ [' '])) =
      xs.map (fun x => ' ' :: (x ++ [' '])) := by
  induction xs with
  | nil => exact absurd rfl hne
  | cons x rest ih =>
    cases rest with
    | nil =>
      have hx : '|' ∉ (' ' :: (x ++ [' '])) := by
        intro habs
        rcases List.mem_cons.mp habs with heq | habs
        · exact absurd heq (by decide)
        · rcases List.mem_append.mp habs with habs | habs
          · exact h x (by simp) habs
          · simp at habs
      simpa [joinSep] using splitChar_of_not_mem hx
    | cons y t =>
      have hx : '|' ∉ (' ' :: (x ++ [' '])) := by
        intro habs
        rcases List.mem_cons.mp habs with heq | habs
        · exact absurd heq (by decide)
        · rcases List.mem_append.mp habs with habs | habs
          · exact h x (by simp) habs
          · simp at habs
      have hshape : (' ' :: (joinSep (str " | ") (x :: y :: t) ++ [' '])) =
          (' ' :: (x ++ [' '])) ++ '|' :: (' ' :: (joinSep (str " | ") (y :: t) ++ [' '])) := by
        simp [joinSep, str]
      rw [hshape, splitChar_append_sep _ hx,
        ih (by simp) (fun z hz => h z (by simp [hz]))]
      simp

/-! ### Cell padding, delimiter rebuilding, widths -/

theorem getD_map_range {α : Type} (f : Nat → α) (n i : Nat) (d : α) :
    ((List.range n).map f).getD i d = if i < n then f i else d := by
  by_cases h : i < n
  · rw [List.getD_eq_getElem _ _ (by simpa using h)]
    simp [h]
  · rw [List.getD_eq_default _ _ (by simpa using Nat.le_of_not_lt h)]
    simp [h]

theorem padCell_shape (w : List Nat) (al : List Alignment) (t : Str) (i : Nat) :
    ∃ a b, padCell w al t i = List.replicate a ' ' ++ t ++ List.replicate b ' ' := by
  unfold padCell
  by_cases h : w.getD i 3 ≤ t.length
  · exact ⟨0, 0, by rw [if_pos h]; simp⟩
  · rw [if_neg h]
    rcases hal : al.getD i Alignment.left with _ | _ | _
    · exact ⟨0, w.getD i 3 - t.length, by simp⟩
    · exact ⟨(w.getD i 3 - t.length) / 2,
        (w.getD i 3 - t.length) - (w.getD i 3 - t.length) / 2, by simp⟩
    · exact ⟨w.getD i 3 - t.length, 0, by simp⟩

theorem trim_padCell (w : List Nat) (al : List Alignment) (t : Str) (i : Nat) :
    trim (padCell w al t i) = trim t := by
  obtain ⟨a, b, hshape⟩ := padCell_shape w al t i
  rw [hshape, trim_pad]

theorem mem_padCell {w : List Nat} {al : List Alignment} {t : Str} {i : Nat}
    {c : Char} (h : c ∈ padCell w al t i) : c = ' ' ∨ c ∈ t := by
  obtain ⟨a, b, hshape⟩ := padCell_shape w al t i
  rw [hshape] at h
  rcases List.mem_append.mp h with h | h
  · rcases List.mem_append.mp h with h | h
    · exact Or.inl (List.eq_of_mem_replicate h)
    · exact Or.inr h
  · exact Or.inl (List.eq_of_mem_replicate h)

theorem colWidths_getD_ge (p : ParsedTable) (i : Nat) :
    3 ≤ (colWidthsOf p).getD i 3 := by
  unfold colWidthsOf
  rw [getD_map_range]
  split
  · exact le_max_right _ _
  · exact le_refl 3

theorem le_foldl_max {α : Type} (f : α → Nat) (l : List α) (init : Nat) :
    init ≤ l.foldl (fun m r => max m (f r)) init := by
  induction l generalizing init with
  | nil => exact le_refl init
  | cons x xs ih =>
    exact le_trans (le_max_left init (f x)) (ih (max init (f x)))

theorem headers_le_colCount (p : ParsedTable) :
    p.headers.length ≤ colCountOf p :=
  le_foldl_max List.length p.rows p.headers.length

theorem buildDelimiter_center (w : List Nat) (al : List Alignment) (i : Nat)
    (hal : al.getD i .left = .center) :
    buildDelimiter w al i = ':' :: (List.replicate (w.getD i 3 - 2) '-' ++ [':']) := by
  unfold buildDelimiter
  rw [hal]
  simp only [List.tail_replicate, List.dropLast_replicate]
  rfl

theorem buildDelimiter_right (w : List Nat) (al : List Alignment) (i : Nat)
    (hal : al.getD i .left = .right) :
    buildDelimiter w al i = List.replicate (w.getD i 3 - 1) '-' ++ [':'] := by
  unfold buildDelimiter
  rw [hal]
  simp only [List.dropLast_replicate]

theorem buildDelimiter_left (w : List Nat) (al : List Alignment) (i : Nat)
    (hal : al.getD i .left = .left) :
    buildDelimiter w al i = List.replicate (w.getD i 3) '-' := by
  unfold buildDelimiter
  rw [hal]

theorem mem_buildDelimiter {w : List Nat} {al : List Alignment} {i : Nat}
    {c : Char} (h : c ∈ buildDelimiter w al i) : c = '-' ∨ c = ':' := by
  rcases hal : al.getD i Alignment.left with _ | _ | _
  · rw [buildDelimiter_left w al i hal] at h
    exact Or.inl (List.eq_of_mem_replicate h)
  · rw [buildDelimiter_center w al i hal] at h
    rcases List.mem_cons.mp h with h | h
    · exact Or.inr h
    · rcases List.mem_append.mp h with h | h
      · exact Or.inl (List.eq_of_mem_replicate h)
      · exact Or.inr (by simpa using h)
  · rw [buildDelimiter_right w al i hal] at h
    rcases List.mem_append.mp h with h | h
    · exact Or.inl (List.eq_of_mem_replicate h)
    · exact Or.inr (by simpa using h)

theorem replicate_head? (n : Nat) (a : Char) (h : 1 ≤ n) :
    (List.replicate n a).head? = some a := by
  cases n with
  | zero => exact absurd h (by simp)
  | succ m => rfl

theorem replicate_getLast? (n : Nat) (a : Char) (h : 1 ≤ n) :
    (List.replicate n a).getLast? = some a := by
  cases n with
  | zero => exact absurd h (by simp)
  | succ m => rw [List.replicate_succ', List.getLast?_concat]

theorem buildDelimiter_head? (w : List Nat) (al : List Alignment) (i : Nat)
    (h3 : 3 ≤ w.getD i 3) :
    (buildDelimiter w al i).head? =
      some (if al.getD i .left = .center then ':' else '-') := by
  rcases hal : al.getD i Alignment.left with _ | _ | _
  · rw [buildDelimiter_left w al i hal,
      replicate_head? (w.getD i 3) '-' (by omega)]
    simp
  · rw [buildDelimiter_center w al i hal]
    simp
  · rw [buildDelimiter_right w al i hal]
    rw [List.head?_append, replicate_head? (w.getD i 3 - 1) '-' (by omega)]
    simp

theorem buildDelimiter_getLast? (w : List Nat) (al : List Alignment) (i : Nat)
    (h3 : 3 ≤ w.getD i 3) :
    (buildDelimiter w al i).getLast? =
      some (if al.getD i .left = .left then '-' else ':') := by
  rcases hal : al.getD i Alignment.left with _ | _ | _
  · rw [buildDelimiter_left w al i hal,
      replicate_getLast? (w.getD i 3) '-' (by omega)]
    simp
  · rw [buildDelimiter_center w al i hal]
    rw [show (':' :: (List.replicate (w.getD i 3 - 2) '-' ++ [':']) : Str) =
      (':' :: List.replicate (w.getD i 3 - 2) '-') ++ [':'] from by simp,
      List.getLast?_concat]
    simp
  · rw [buildDelimiter_right w al i hal, List.getLast?_concat]
    simp

theorem trim_buildDelimiter (w : List Nat) (al : List Alignment) (i : Nat)
    (h3 : 3 ≤ w.getD i 3) :
    trim (buildDelimiter w al i) = buildDelimiter w al i := by
  refine trim_eq_self _ ?_ ?_
  · rw [buildDelimiter_head? w al i h3]
    split <;> decide
  · rw [buildDelimiter_getLast? w al i h3]
    split <;> decide

theorem parseAlignment_buildDelimiter (w : List Nat) (al : List Alignment)
    (i : Nat) (h3 : 3 ≤ w.getD i 3) :
    parseAlignment (buildDelimiter w al i) = al.getD i .left := by
  simp only [parseAlignment]
  rw [trim_buildDelimiter w al i h3, buildDelimiter_head? w al i h3,
    buildDelimiter_getLast? w al i h3]
  rcases al.getD i Alignment.left with _ | _ | _ <;> simp

theorem delimStrip_eq (s : Str) (a b : Bool) (k : Nat) (hk : 1 ≤ k)
    (hs : s = (if a then [':'] else []) ++ List.replicate k '-' ++
      (if b then [':'] else [])) :
    (if ((if s.head? = some ':' then s.tail else s)).getLast? = some ':' then
      (if s.head? = some ':' then s.tail else s).dropLast
    else (if s.head? = some ':' then s.tail else s)) = List.replicate k '-' := by
  subst hs
  cases a <;> cases b <;>
    simp [List.head?_append, List.head?_replicate, List.getLast?_concat,
      List.getLast?_replicate, show k ≠ 0 by omega, List.dropLast_concat]

theorem delim_head? (a b : Bool) (k : Nat) (hk : k ≠ 0) :
    (((if a then [':'] else []) ++ List.replicate k '-' ++
      (if b then [':'] else [])) : Str).head? = some (if a then ':' else '-') := by
  cases a <;> simp [List.head?_append, List.head?_replicate, hk]

theorem delim_getLast? (a b : Bool) (k : Nat) (hk : k ≠ 0) :
    (((if a then [':'] else []) ++ List.replicate k '-' ++
      (if b then [':'] else [])) : Str).getLast? = some (if b then ':' else '-') := by
  cases b <;>
    simp [List.getLast?_append, List.getLast?_replicate, hk]

theorem isDelimCell_core (a b : Bool) (k : Nat) (hk : 1 ≤ k) :
    isDelimCell ((if a then [':'] else []) ++ List.replicate k '-' ++
      (if b then [':'] else [])) = true := by
  have hne0 : k ≠ 0 := by omega
  have htrim : trim ((if a then [':'] else []) ++ List.replicate k '-' ++
      (if b then [':'] else [])) = (if a then [':'] else []) ++
        List.replicate k '-' ++ (if b then [':'] else []) := by
    refine trim_eq_self _ ?_ ?_
    · rw [delim_head? a b k hne0]
      cases a <;> decide
    · rw [delim_getLast? a b k hne0]
      cases b <;> decide
  simp only [isDelimCell]
  rw [htrim, delimStrip_eq _ a b k hk rfl]
  simp [List.all_eq_true, hne0]

theorem buildDelimiter_shape (w : List Nat) (al : List Alignment) (i : Nat)
    (h3 : 3 ≤ w.getD i 3) :
    ∃ (a b : Bool) (k : Nat), 1 ≤ k ∧ buildDelimiter w al i =
      (if a then [':'] else []) ++ List.replicate k '-' ++
        (if b then [':'] else []) := by
  rcases hal : al.getD i Alignment.left with _ | _ | _
  · exact ⟨false, false, w.getD i 3, by omega,
      by rw [buildDelimiter_left w al i hal]; simp⟩
  · exact ⟨true, true, w.getD i 3 - 2, by omega,
      by rw [buildDelimiter_center w al i hal]; simp⟩
  · exact ⟨false, true, w.getD i 3 - 1, by omega,
      by rw [buildDelimiter_right w al i hal]; simp⟩

theorem isDelimCell_buildDelimiter (w : List Nat) (al : List Alignment)
    (i : Nat) (h3 : 3 ≤ w.getD i 3) :
    isDelimCell (buildDelimiter w al i) = true := by
  obtain ⟨a, b, k, hk, hshape⟩ := buildDelimiter_shape w al i h3
  rw [hshape]
  exact isDelimCell_core a b k hk

/-! ### Index-carrying map lemmas -/

theorem map_mapIdxFrom {α β γ : Type} (g : β → γ) (f : Nat → α → β)
    (n : Nat) (l : List α) :
    (mapIdxFrom f n l).map g = mapIdxFrom (fun i x => g (f i x)) n l := by
  induction l generalizing n with
  | nil => rfl
  | cons x xs ih => simp [mapIdxFrom, ih]

theorem mapIdxFrom_eq_self {α : Type} (f : Nat → α → α) (l : List α)
    (h : ∀ i x, x ∈ l → f i x = x) (n : Nat) : mapIdxFrom f n l = l := by
  induction l generalizing n with
  | nil => rfl
  | cons x xs ih =>
    simp only [mapIdxFrom, h n x (by simp)]
    rw [ih (fun i y hy => h i y (by simp [hy])) (n + 1)]

theorem mapIdxFrom_congr {α β : Type} (f g : Nat → α → β) (l : List α) (n : Nat)
    (h : ∀ i x, n ≤ i → i < n + l.length → x ∈ l → f i x = g i x) :
    mapIdxFrom f n l = mapIdxFrom g n l := by
  induction l generalizing n with
  | nil => rfl
  | cons x xs ih =>
    simp only [mapIdxFrom, h n x (le_refl n) (by simp) (by simp)]
    rw [ih (n + 1) (fun i y hi hi2 hy => h i y (by omega)
      (by simp at hi2 ⊢; omega) (by simp [hy]))]

theorem mapIdxFrom_ne_nil {α β : Type} (f : Nat → α → β) (n : Nat)
    {l : List α} (h : l ≠ []) : mapIdxFrom f n l ≠ [] := by
  cases l with
  | nil => exact absurd rfl h
  | cons x xs => simp [mapIdxFrom]

/-! ### Parsed-cell invariants -/

theorem parseCells_facts (line : Str) :
    ∀ cell ∈ parseCells line,
      trim cell = cell ∧ '|' ∉ cell ∧ ∀ c ∈ cell, c ∈ line := by
  intro cell hc
  unfold parseCells at hc
  rcases List.mem_map.mp hc with ⟨piece, hpiece, rfl⟩
  refine ⟨trim_trim piece, ?_, ?_⟩
  · exact fun habs => not_mem_of_mem_splitChar hpiece (mem_of_mem_trim habs)
  · intro c hcc
    have h1 : c ∈ piece := mem_of_mem_trim hcc
    have h2 := mem_of_mem_splitChar hpiece h1
    have h3 : ∀ x : Str, c ∈ (if x.getLast? = some '|' then x.dropLast else x) → c ∈ x := by
      intro x hx
      split at hx
      · exact (List.dropLast_sublist x).subset hx
      · exact hx
    have h4 : ∀ x : Str, c ∈ (if x.head? = some '|' then x.tail else x) → c ∈ x := by
      intro x hx
      split at hx
      · exact (List.tail_sublist x).subset hx
      · exact hx
    exact mem_of_mem_trim (h4 _ (h3 _ h2))

theorem parseCells_ne_nil (line : Str) : parseCells line ≠ [] := by
  unfold parseCells
  intro habs
  exact splitChar_ne_nil _ _ (List.map_eq_nil_iff.mp habs)

theorem trim_space_wrap (x : Str) : trim (' ' :: (x ++ [' '])) = trim x := by
  simpa using trim_pad 1 1 x

theorem parseCells_mkTableLine (cells : List Str) (hne : cells ≠ [])
    (h : ∀ x ∈ cells, '|' ∉ x) :
    parseCells (mkTableLine cells) = cells.map trim := by
  have hshape : mkTableLine cells =
      '|' :: ((' ' :: (joinSep (str " | ") cells ++ [' '])) ++ ['|']) := by
    simp [mkTableLine, str]
  have htr : trim ('|' :: ((' ' :: (joinSep (str " | ") cells ++ [' '])) ++ ['|'])) =
      '|' :: ((' ' :: (joinSep (str " | ") cells ++ [' '])) ++ ['|']) := by
    refine trim_eq_self _ ?_ ?_
    · rw [List.head?_cons]
      decide
    · rw [show ('|' :: ((' ' :: (joinSep (str " | ") cells ++ [' '])) ++ ['|']) : Str) =
        ('|' :: (' ' :: (joinSep (str " | ") cells ++ [' ']))) ++ ['|'] from by simp,
        List.getLast?_concat]
      decide
  simp only [parseCells]
  rw [hshape, htr]
  rw [List.head?_cons, if_pos rfl, List.tail_cons]
  rw [show ((' ' :: (joinSep (str " | ") cells ++ [' '])) ++ ['|'] : Str).getLast? =
    some '|' from List.getLast?_concat _]
  rw [if_pos rfl, List.dropLast_concat]
  rw [splitChar_spaced hne h, List.map_map]
  exact List.map_congr_left fun x _ => trim_space_wrap x

/-! ### Invariants of parsed tables -/

theorem getD_mem {α : Type} (l : List α) (i : Nat) (d : α) (h : i < l.length) :
    l.getD i d ∈ l := by
  rw [List.getD_eq_getElem l d h]
  exact List.getElem_mem h

theorem parseTableMarkdown_some {t : Str} {p : ParsedTable}
    (h : parseTableMarkdown t = some p) :
    ¬ ((splitChar '\n' t).filter (fun l => decide (trim l ≠ []))).length < 2 ∧
    (parseCells (((splitChar '\n' t).filter
      (fun l => decide (trim l ≠ []))).getD 1 [])).all isDelimCell = true ∧
    p = ⟨parseCells (((splitChar '\n' t).filter (fun l => decide (trim l ≠ []))).getD 0 []),
      (parseCells (((splitChar '\n' t).filter (fun l => decide (trim l ≠ []))).getD 1 [])).map
        parseAlignment,
      (((splitChar '\n' t).filter (fun l => decide (trim l ≠ []))).drop 2).map parseCells⟩ := by
  simp only [parseTableMarkdown] at h
  by_cases h1 : ((splitChar '\n' t).filter (fun l => decide (trim l ≠ []))).length < 2
  · rw [if_pos h1] at h
    exact absurd h (by simp)
  · rw [if_neg h1] at h
    by_cases h2 : (parseCells (((splitChar '\n' t).filter
        (fun l => decide (trim l ≠ []))).getD 1 [])).all isDelimCell = true
    · rw [if_pos h2] at h
      injection h with h
      exact ⟨h1, h2, h.symm⟩
    · rw [if_neg h2] at h
      exact absurd h (by simp)

theorem parse_inv {t : Str} {p : ParsedTable}
    (h : parseTableMarkdown t = some p) : tableInv p := by
  obtain ⟨hlen, _, hp⟩ := parseTableMarkdown_some h
  have hlineNoNl : ∀ line ∈ (splitChar '\n' t).filter (fun l => decide (trim l ≠ [])),
      '\n' ∉ line := fun line hm =>
    not_mem_of_mem_splitChar (List.mem_of_mem_filter hm)
  have hcellFacts : ∀ line ∈ (splitChar '\n' t).filter (fun l => decide (trim l ≠ [])),
      ∀ c ∈ parseCells line, trim c = c ∧ '|' ∉ c ∧ '\n' ∉ c := by
    intro line hline c hc
    obtain ⟨ht, hpipe, hchars⟩ := parseCells_facts line c hc
    exact ⟨ht, hpipe, fun habs => hlineNoNl line hline (hchars '\n' habs)⟩
  subst hp
  refine ⟨parseCells_ne_nil _, ?_, ?_⟩
  · exact hcellFacts _ (getD_mem _ 0 [] (by omega))
  · intro r hr c hc
    rcases List.mem_map.mp hr with ⟨line, hline, rfl⟩
    exact hcellFacts line (List.drop_subset 2 _ hline) c hc

/-! ### Parsing the formatted output -/

theorem formatParsed_eq (p : ParsedTable) :
    formatParsed p = joinSep (str "\n")
      (mkTableLine (fpHeaderCells p) :: mkTableLine (fpDelimCells p) ::
        p.rows.map (fun row => mkTableLine (fpRowCells p row))) := rfl

theorem mkTableLine_shape (cells : List Str) :
    mkTableLine cells =
      '|' :: ((' ' :: (joinSep (str " | ") cells ++ [' '])) ++ ['|']) := by
  simp [mkTableLine, str]

theorem newline_not_mem_mkTableLine {cells : List Str}
    (h : ∀ x ∈ cells, '\n' ∉ x) : '\n' ∉ mkTableLine cells := by
  intro habs
  unfold mkTableLine at habs
  rcases List.mem_append.mp habs with h1 | h1
  · rcases List.mem_append.mp h1 with h2 | h2
    · simp [str] at h2
    · rcases mem_joinSep h2 with h3 | ⟨x, hx, h3⟩
      · simp [str] at h3
      · exact h x hx h3
  · simp [str] at h1

theorem trim_mkTableLine_ne_nil (cells : List Str) :
    trim (mkTableLine cells) ≠ [] := by
  rw [mkTableLine_shape]
  exact trim_cons_ne_nil _ _ (by decide)

theorem colCount_pos {p : ParsedTable} (hne : p.headers ≠ []) :
    1 ≤ colCountOf p :=
  le_trans (by
    cases hp : p.headers with
    | nil => exact absurd hp hne
    | cons x xs => simp) (headers_le_colCount p)

theorem mem_mapIdxFrom {α β : Type} {f : Nat → α → β} {n : Nat} {l : List α}
    {y : β} (h : y ∈ mapIdxFrom f n l) : ∃ i x, x ∈ l ∧ y = f i x := by
  induction l generalizing n with
  | nil => simp [mapIdxFrom] at h
  | cons x xs ih =>
    rcases List.mem_cons.mp h with h | h
    · exact ⟨n, x, by simp, h⟩
    · obtain ⟨i, z, hz, hy⟩ := ih h
      exact ⟨i, z, by simp [hz], hy⟩

theorem mem_getD_mem {row : List Str} {i : Nat} {c : Char}
    (h : c ∈ row.getD i []) : ∃ cell ∈ row, c ∈ cell := by
  by_cases hi : i < row.length
  · exact ⟨row.getD i [], getD_mem row i [] hi, h⟩
  · rw [List.getD_eq_default row [] (Nat.le_of_not_lt hi)] at h
    simp at h

theorem fpHeaderCells_no_pipe {p : ParsedTable} (hinv : tableInv p) :
    ∀ x ∈ fpHeaderCells p, '|' ∉ x := by
  intro x hx habs
  obtain ⟨i, hcell, hmem, rfl⟩ := mem_mapIdxFrom hx
  rcases mem_padCell habs with h | h
  · simp at h
  · exact (hinv.2.1 hcell hmem).2.1 h

theorem fpHeaderCells_no_newline {p : ParsedTable} (hinv : tableInv p) :
    ∀ x ∈ fpHeaderCells p, '\n' ∉ x := by
  intro x hx habs
  obtain ⟨i, hcell, hmem, rfl⟩ := mem_mapIdxFrom hx
  rcases mem_padCell habs with h | h
  · simp at h
  · exact (hinv.2.1 hcell hmem).2.2 h

theorem fpDelimCells_chars {p : ParsedTable} :
    ∀ x ∈ fpDelimCells p, ∀ c ∈ x, c = '-' ∨ c = ':' := by
  intro x hx c hc
  rcases List.mem_map.mp hx with ⟨i, _, rfl⟩
  exact mem_buildDelimiter hc

theorem fpRowCells_no_pipe {p : ParsedTable} (hinv : tableInv p)
    {row : List Str} (hrow : row ∈ p.rows) :
    ∀ x ∈ fpRowCells p row, '|' ∉ x := by
  intro x hx habs
  rcases List.mem_map.mp hx with ⟨i, _, rfl⟩
  rcases mem_padCell habs with h | h
  · simp at h
  · obtain ⟨cell, hcell, hc⟩ := mem_getD_mem h
    exact (hinv.2.2 row hrow cell hcell).2.1 hc

theorem fpRowCells_no_newline {p : ParsedTable} (hinv : tableInv p)
    {row : List Str} (hrow : row ∈ p.rows) :
    ∀ x ∈ fpRowCells p row, '\n' ∉ x := by
  intro x hx habs
  rcases List.mem_map.mp hx with ⟨i, _, rfl⟩
  rcases mem_padCell habs with h | h
  · simp at h
  · obtain ⟨cell, hcell, hc⟩ := mem_getD_mem h
    exact (hinv.2.2 row hrow cell hcell).2.2 hc

theorem fpHeaderCells_ne_nil {p : ParsedTable} (hinv : tableInv p) :
    fpHeaderCells p ≠ [] :=
  mapIdxFrom_ne_nil _ 0 hinv.1

theorem fpHeaderCells_parse {p : ParsedTable} (hinv : tableInv p) :
    parseCells (mkTableLine (fpHeaderCells p)) = p.headers := by
  rw [parseCells_mkTableLine _ (fpHeaderCells_ne_nil hinv)
    (fpHeaderCells_no_pipe hinv)]
  unfold fpHeaderCells mapIdx'
  rw [map_mapIdxFrom]
  exact mapIdxFrom_eq_self _ _
    (fun i x hx => by rw [trim_padCell]; exact (hinv.2.1 x hx).1) 0

theorem fpDelimCells_ne_nil {p : ParsedTable} (hinv : tableInv p) :
    fpDelimCells p ≠ [] := by
  unfold fpDelimCells
  have := colCount_pos hinv.1
  intro habs
  rw [List.map_eq_nil_iff, List.range_eq_nil] at habs
  omega

theorem fpDelimCells_no_pipe (p : ParsedTable) :
    ∀ x ∈ fpDelimCells p, '|' ∉ x := by
  intro x hx habs
  rcases fpDelimCells_chars x hx '|' habs with h | h <;> simp at h

theorem fpDelimCells_parse {p : ParsedTable} (hinv : tableInv p) :
    parseCells (mkTableLine (fpDelimCells p)) = fpDelimCells p := by
  rw [parseCells_mkTableLine _ (fpDelimCells_ne_nil hinv) (fpDelimCells_no_pipe p)]
  unfold fpDelimCells
  rw [List.map_map]
  exact List.map_congr_left fun i _ =>
    trim_buildDelimiter _ _ i (colWidths_getD_ge p i)

theorem fpDelimCells_all_delim (p : ParsedTable) :
    (fpDelimCells p).all isDelimCell = true := by
  rw [List.all_eq_true]
  intro x hx
  rcases List.mem_map.mp hx with ⟨i, _, rfl⟩
  exact isDelimCell_buildDelimiter _ _ i (colWidths_getD_ge p i)

theorem fpDelimCells_alignments (p : ParsedTable) :
    (fpDelimCells p).map parseAlignment =
      (List.range (colCountOf p)).map (fun i => p.alignments.getD i .left) := by
  unfold fpDelimCells
  rw [List.map_map]
  exact List.map_congr_left fun i _ =>
    parseAlignment_buildDelimiter _ _ i (colWidths_getD_ge p i)

theorem fpRowCells_ne_nil {p : ParsedTable} (hinv : tableInv p) (row : List Str) :
    fpRowCells p row ≠ [] := by
  unfold fpRowCells
  have := colCount_pos hinv.1
  intro habs
  rw [List.map_eq_nil_iff, List.range_eq_nil] at habs
  omega

theorem fpRowCells_parse {p : ParsedTable} (hinv : tableInv p)
    {row : List Str} (hrow : row ∈ p.rows) :
    parseCells (mkTableLine (fpRowCells p row)) =
      (List.range (colCountOf p)).map (fun i => row.getD i []) := by
  rw [parseCells_mkTableLine _ (fpRowCells_ne_nil hinv row)
    (fpRowCells_no_pipe hinv hrow)]
  unfold fpRowCells
  rw [List.map_map]
  refine List.map_congr_left fun i _ => ?_
  rw [Function.comp_apply, trim_padCell]
  by_cases hi : i < row.length
  · exact (hinv.2.2 row hrow _ (getD_mem row i [] hi)).1
  · rw [List.getD_eq_default row [] (Nat.le_of_not_lt hi)]
    rfl

theorem formatParsed_filter_lines (p : ParsedTable) :
    ∀ line ∈ (mkTableLine (fpHeaderCells p) :: mkTableLine (fpDelimCells p) ::
      p.rows.map (fun row => mkTableLine (fpRowCells p row))),
      decide (trim line ≠ []) = true := by
  intro line hline
  rcases List.mem_cons.mp hline with rfl | hline
  · simpa using trim_mkTableLine_ne_nil _
  · rcases List.mem_cons.mp hline with rfl | hline
    · simpa using trim_mkTableLine_ne_nil _
    · rcases List.mem_map.mp hline with ⟨row, _, rfl⟩
      simpa using trim_mkTableLine_ne_nil _

theorem formatParsed_split (p : ParsedTable) (hinv : tableInv p) :
    splitChar '\n' (formatParsed p) =
      mkTableLine (fpHeaderCells p) :: mkTableLine (fpDelimCells p) ::
        p.rows.map (fun row => mkTableLine (fpRowCells p row)) := by
  rw [formatParsed_eq, show str "\n" = ['\n'] from rfl]
  refine splitChar_joinSep (by simp) ?_
  intro line hline
  rcases List.mem_cons.mp hline with rfl | hline
  · exact newline_not_mem_mkTableLine (fpHeaderCells_no_newline hinv)
  · rcases List.mem_cons.mp hline with rfl | hline
    · exact newline_not_mem_mkTableLine fun x hx habs => by
        rcases fpDelimCells_chars x hx '\n' habs with h | h <;> simp at h
    · rcases List.mem_map.mp hline with ⟨row, hrow, rfl⟩
      exact newline_not_mem_mkTableLine (fpRowCells_no_newline hinv hrow)

theorem parseTableMarkdown_formatParsed (p : ParsedTable) (hinv : tableInv p) :
    parseTableMarkdown (formatParsed p) = some (extendParsed p) := by
  have hsplit := formatParsed_split p hinv
  have hfilter : (splitChar '\n' (formatParsed p)).filter
      (fun l => decide (trim l ≠ [])) =
      mkTableLine (fpHeaderCells p) :: mkTableLine (fpDelimCells p) ::
        p.rows.map (fun row => mkTableLine (fpRowCells p row)) := by
    rw [hsplit]
    exact List.filter_eq_self.mpr (formatParsed_filter_lines p)
  simp only [parseTableMarkdown, hfilter]
  rw [if_neg (by simp)]
  have hget0 : (mkTableLine (fpHeaderCells p) :: mkTableLine (fpDelimCells p) ::
      p.rows.map (fun row => mkTableLine (fpRowCells p row))).getD 0 [] =
      mkTableLine (fpHeaderCells p) := rfl
  have hget1 : (mkTableLine (fpHeaderCells p) :: mkTableLine (fpDelimCells p) ::
      p.rows.map (fun row => mkTableLine (fpRowCells p row))).getD 1 [] =
      mkTableLine (fpDelimCells p) := rfl
  rw [hget0, hget1, List.drop_succ_cons, List.drop_succ_cons, List.drop_zero]
  rw [fpDelimCells_parse hinv, if_pos (fpDelimCells_all_delim p)]
  rw [fpHeaderCells_parse hinv, fpDelimCells_alignments p]
  have hrows : (p.rows.map (fun row => mkTableLine (fpRowCells p row))).map parseCells =
      p.rows.map (fun row => (List.range (colCountOf p)).map (fun i => row.getD i [])) := by
    rw [List.map_map]
    exact List.map_congr_left fun row hrow => fpRowCells_parse hinv hrow
  rw [hrows]
  rfl

/-! ### Formatting the re-parsed table -/

theorem foldl_max_const {α : Type} (l : List α) (acc n : Nat) :
    l.foldl (fun m _ => max m n) acc = if l.isEmpty then acc else max acc n := by
  induction l generalizing acc with
  | nil => rfl
  | cons x xs ih =>
    simp only [List.foldl_cons, List.isEmpty_cons, Bool.false_eq_true, if_false]
    rw [ih (max acc n)]
    split
    · rfl
    · rw [Nat.max_assoc, Nat.max_self]

theorem colCount_extend (p : ParsedTable) :
    colCountOf (extendParsed p) = colCountOf p := by
  have h1 : colCountOf (extendParsed p) =
      (p.rows.map (fun row => (List.range (colCountOf p)).map
        (fun i => row.getD i []))).foldl
        (fun m r => max m r.length) p.headers.length := rfl
  rw [h1, List.foldl_map]
  have hstep : (fun (m : Nat) (row : List Str) =>
      max m ((List.range (colCountOf p)).map (fun i => row.getD i [])).length) =
      fun m _ => max m (colCountOf p) := by
    funext m row
    simp
  rw [hstep, foldl_max_const]
  cases hr : p.rows with
  | nil => simp [colCountOf, hr]
  | cons r rs =>
    simp only [List.isEmpty_cons, Bool.false_eq_true, if_false]
    exact Nat.max_eq_right (headers_le_colCount p)

theorem colWidths_extend (p : ParsedTable) :
    colWidthsOf (extendParsed p) = colWidthsOf p := by
  have h1 : colWidthsOf (extendParsed p) =
      (List.range (colCountOf (extendParsed p))).map (fun c =>
        max ((p.rows.map (fun row => (List.range (colCountOf p)).map
          (fun i => row.getD i []))).foldl
          (fun m row => max m (row.getD c []).length)
          ((p.headers.getD c []).length)) 3) := rfl
  rw [h1, colCount_extend]
  unfold colWidthsOf
  refine List.map_congr_left fun c hc => ?_
  have hcn : c < colCountOf p := List.mem_range.mp hc
  rw [List.foldl_map]
  have hstep : (fun (m : Nat) (row : List Str) =>
      max m (((List.range (colCountOf p)).map (fun i => row.getD i [])).getD c []).length) =
      fun m row => max m (row.getD c []).length := by
    funext m row
    rw [getD_map_range, if_pos hcn]
  rw [hstep]

theorem padCell_congr (w : List Nat) (al al' : List Alignment) (t : Str) (i : Nat)
    (h : al'.getD i .left = al.getD i .left) : padCell w al' t i = padCell w al t i := by
  simp only [padCell, h]

theorem buildDelimiter_congr (w : List Nat) (al al' : List Alignment) (i : Nat)
    (h : al'.getD i .left = al.getD i .left) :
    buildDelimiter w al' i = buildDelimiter w al i := by
  simp only [buildDelimiter, h]

theorem extend_align_getD (p : ParsedTable) (i : Nat) (h : i < colCountOf p) :
    (extendParsed p).alignments.getD i .left = p.alignments.getD i .left := by
  have h1 : (extendParsed p).alignments =
      (List.range (colCountOf p)).map (fun i => p.alignments.getD i .left) := rfl
  rw [h1, getD_map_range, if_pos h]

theorem formatParsed_extend (p : ParsedTable) :
    formatParsed (extendParsed p) = formatParsed p := by
  rw [formatParsed_eq, formatParsed_eq]
  have hw := colWidths_extend p
  have hheader : fpHeaderCells (extendParsed p) = fpHeaderCells p := by
    unfold fpHeaderCells mapIdx'
    rw [hw, show (extendParsed p).headers = p.headers from rfl]
    refine mapIdxFrom_congr _ _ _ 0 fun i x h0 hlt hx => ?_
    refine padCell_congr _ _ _ _ _ (extend_align_getD p i ?_)
    have := headers_le_colCount p
    simp at hlt
    omega
  have hdelim : fpDelimCells (extendParsed p) = fpDelimCells p := by
    unfold fpDelimCells
    rw [hw, colCount_extend]
    exact List.map_congr_left fun i hi =>
      buildDelimiter_congr _ _ _ i (extend_align_getD p i (List.mem_range.mp hi))
  have hrows : (extendParsed p).rows.map
      (fun row => mkTableLine (fpRowCells (extendParsed p) row)) =
      p.rows.map (fun row => mkTableLine (fpRowCells p row)) := by
    rw [show (extendParsed p).rows = p.rows.map (fun row =>
      (List.range (colCountOf p)).map (fun i => row.getD i [])) from rfl,
      List.map_map]
    refine List.map_congr_left fun row hrow => congrArg mkTableLine ?_
    show fpRowCells (extendParsed p) ((List.range (colCountOf p)).map
      (fun i => row.getD i [])) = fpRowCells p row
    unfold fpRowCells
    rw [hw, colCount_extend]
    refine List.map_congr_left fun i hi => ?_
    have hcn := List.mem_range.mp hi
    rw [getD_map_range, if_pos hcn]
    exact padCell_congr _ _ _ _ _ (extend_align_getD p i hcn)
  rw [hheader, hdelim, hrows]

/-- C2: formatting is idempotent on every table the parser accepts: the
formatted output re-parses to the same content (with the delimiter row
rebuilt from the computed widths and parsed alignments, and rows padded to
the column count), and formatting that re-parse reproduces the same
string. -/
theorem c2_format_table_idempotent :
    ∀ (t : Str) (p : ParsedTable), parseTableMarkdown t = some p →
      formatTable (formatTable t) = formatTable t := by
  intro t p hp
  have hinv := parse_inv hp
  have h1 : formatTable t = formatParsed p := by
    simp only [formatTable, hp]
  rw [h1]
  simp only [formatTable, parseTableMarkdown_formatParsed p hinv]
  exact formatParsed_extend p

/-- C2 witness: the idempotence theorem applied to a concrete accepted
table. -/
theorem c2_format_table_idempotent_witness :
    parseTableMarkdown (str "| a | b |\n|:--|-:|\n| x |") =
      some ⟨[str "a", str "b"], [.left, .right], [[str "x"]]⟩ ∧
    formatTable (formatTable (str "| a | b |\n|:--|-:|\n| x |")) =
      formatTable (str "| a | b |\n|:--|-:|\n| x |") :=
  ⟨by rfl, c2_format_table_idempotent _
    ⟨[str "a", str "b"], [.left, .right], [[str "x"]]⟩ (by rfl)⟩

/-! ### The delimiter-row verdict -/

theorem eq_cons_of_head? {t : Str} {c : Char} (h : t.head? = some c) :
    t = c :: t.tail := by
  cases t with
  | nil => simp at h
  | cons x xs =>
    simp only [List.head?_cons, Option.some.injEq] at h
    rw [h]
    rfl

theorem eq_concat_of_getLast? {t : Str} {c : Char} (h : t.getLast? = some c) :
    t = t.dropLast ++ [c] := by
  have hne : t ≠ [] := by
    intro habs
    rw [habs] at h
    simp at h
  have h2 := List.getLast?_eq_getLast t hne
  rw [h2, Option.some.injEq] at h
  rw [← h] at *
  exact (List.dropLast_append_getLast hne).symm

theorem isDelimCell_iff_pattern (c : Str) :
    isDelimCell c = true ↔ matchesDelimPattern (trim c) := by
  constructor
  · intro h
    simp only [isDelimCell, Bool.and_eq_true, decide_eq_true_eq,
      List.all_eq_true, decide_eq_true_eq] at h
    obtain ⟨hne, hall⟩ := h
    by_cases h1 : (trim c).head? = some ':'
    · rw [if_pos h1] at hne hall
      by_cases h2 : ((trim c).tail).getLast? = some ':'
      · rw [if_pos h2] at hne hall
        refine ⟨true, true, (trim c).tail.dropLast.length, ?_, ?_⟩
        · have := List.length_pos.mpr hne
          omega
        · have ht := eq_cons_of_head? h1
          have ht2 := eq_concat_of_getLast? h2
          have hrep : (trim c).tail.dropLast =
              List.replicate (trim c).tail.dropLast.length '-' :=
            List.eq_replicate_iff.mpr ⟨rfl, hall⟩
          rw [show (if (true : Bool) then ([':'] : Str) else []) = [':'] from rfl]
          conv_lhs => rw [ht, ht2, hrep]
          simp
      · rw [if_neg h2] at hne hall
        refine ⟨true, false, (trim c).tail.length, ?_, ?_⟩
        · have := List.length_pos.mpr hne
          omega
        · have ht := eq_cons_of_head? h1
          have hrep : (trim c).tail = List.replicate (trim c).tail.length '-' :=
            List.eq_replicate_iff.mpr ⟨rfl, hall⟩
          conv_lhs => rw [ht, hrep]
          simp
    · rw [if_neg h1] at hne hall
      by_cases h2 : (trim c).getLast? = some ':'
      · rw [if_pos h2] at hne hall
        refine ⟨false, true, (trim c).dropLast.length, ?_, ?_⟩
        · have := List.length_pos.mpr hne
          omega
        · have ht2 := eq_concat_of_getLast? h2
          have hrep : (trim c).dropLast =
              List.replicate (trim c).dropLast.length '-' :=
            List.eq_replicate_iff.mpr ⟨rfl, hall⟩
          conv_lhs => rw [ht2, hrep]
          simp
      · rw [if_neg h2] at hne hall
        refine ⟨false, false, (trim c).length, ?_, ?_⟩
        · have := List.length_pos.mpr hne
          omega
        · have hrep : trim c = List.replicate (trim c).length '-' :=
            List.eq_replicate_iff.mpr ⟨rfl, hall⟩
          conv_lhs => rw [hrep]
          simp
  · rintro ⟨a, b, k, hk, heq⟩
    simp only [isDelimCell]
    rw [heq, delimStrip_eq _ a b k hk rfl]
    simp [show k ≠ 0 by omega]

/-- C6: for every input block with at least two non-empty lines, the table
parser returns the "not a table" verdict exactly when some cell of the
second line, after trimming, fails the `^:?-+:?$` delimiter pattern; on
acceptance, each column's alignment is derived from the trimmed delimiter
cell — center with a colon at both ends, right with a trailing colon only,
left otherwise. -/
theorem c6_table_parser_verdict :
    ∀ s : Str,
      2 ≤ ((splitChar '\n' s).filter (fun l => decide (trim l ≠ []))).length →
      ((parseTableMarkdown s = none ↔
        ∃ cell ∈ parseCells (((splitChar '\n' s).filter
          (fun l => decide (trim l ≠ []))).getD 1 []),
          ¬ matchesDelimPattern (trim cell)) ∧
      (∀ p, parseTableMarkdown s = some p →
        p.alignments = (parseCells (((splitChar '\n' s).filter
          (fun l => decide (trim l ≠ []))).getD 1 [])).map
            (fun cell => specAlignment (trim cell)))) := by
  intro s hlen
  have hnl : ¬ ((splitChar '\n' s).filter (fun l => decide (trim l ≠ []))).length < 2 := by
    omega
  constructor
  · simp only [parseTableMarkdown, if_neg hnl]
    constructor
    · intro h
      by_cases h2 : (parseCells (((splitChar '\n' s).filter
          (fun l => decide (trim l ≠ []))).getD 1 [])).all isDelimCell = true
      · rw [if_pos h2] at h
        exact absurd h (by simp)
      · rw [List.all_eq_true] at h2
        push_neg at h2
        obtain ⟨cell, hc, hfail⟩ := h2
        exact ⟨cell, hc, fun hp => hfail ((isDelimCell_iff_pattern cell).mpr hp)⟩
    · rintro ⟨cell, hc, hfail⟩
      rw [if_neg fun hall => hfail ((isDelimCell_iff_pattern cell).mp
        (List.all_eq_true.mp hall cell hc))]
  · intro p hp
    obtain ⟨_, _, hpe⟩ := parseTableMarkdown_some hp
    rw [hpe]
    exact List.map_congr_left fun cell _ => rfl

/-- C6 witness: the verdict theorem applied to a concrete rejected block
whose second line has the non-delimiter cell `x`. -/
theorem c6_table_parser_verdict_witness :
    2 ≤ ((splitChar '\n' (str "| a |\n| x |")).filter
      (fun l => decide (trim l ≠ []))).length ∧
    parseTableMarkdown (str "| a |\n| x |") = none :=
  ⟨by decide,
    ((c6_table_parser_verdict _ (by decide)).1).mpr
      ⟨str "x", by decide, by
        rintro ⟨a, b, k, hk, heq⟩
        rw [show trim (str "x") = ['x'] from rfl] at heq
        have hx : ('x' : Char) ∈ (if a then ([':'] : Str) else []) ++
            List.replicate k '-' ++ (if b then ([':'] : Str) else []) := by
          rw [← heq]
          simp
        rcases List.mem_append.mp hx with h | h
        · rcases List.mem_append.mp h with h | h
          · cases a <;> simp at h
          · exact absurd (List.eq_of_mem_replicate h) (by decide)
        · cases b <;> simp at h⟩⟩

/-- C3: `parseCodeInfo` on the spec's example input
`tsx line-numbers{5} title="hello.tsx" copy {2-4,5} /Hello/3-5` yields
language `tsx`, line numbers starting at 5, title `hello.tsx`, the copy
flag, highlighted lines `[2,3,4,5]`, and one text highlight `Hello` with
instances `[3,4,5]`. -/
theorem c3_parse_code_info_example :
    parseCodeInfo (str "tsx line-numbers{5} title=\"hello.tsx\" copy {2-4,5} /Hello/3-5") =
      { language := str "tsx",
        lineNumbers := some (.startAt 5),
        title := some (str "hello.tsx"),
        caption := none,
        copy := some true,
        highlightLines := some [2, 3, 4, 5],
        highlightText := some [⟨str "Hello", some [3, 4, 5]⟩] } := by
  rfl

/-- C4: pairing the tag tokens of `<b>x<i>y</i>z</b>` yields exactly one
kept element spanning the whole string; every token between the pair is
consumed, so the orphan pass styles nothing. -/
theorem c4_tag_pairing_example :
    collectElements docPaired tagsPaired =
      ⟨[⟨0, 17, str "<b>x<i>y</i>z</b>"⟩], [0, 1, 2, 3]⟩ ∧
    filterOverlapsFrom (-1) (sortByStart (collectElements docPaired tagsPaired).elems) =
      [⟨0, 17, str "<b>x<i>y</i>z</b>"⟩] ∧
    (List.range tagsPaired.length).filter
        (fun i => !(collectElements docPaired tagsPaired).used.contains i) = [] := by
  refine ⟨?_, ?_, ?_⟩ <;> rfl

/-- C7 counterexample: in `<b>x<c>y</b>` the open tag `<c>` finds no
matching close before its line ends, yet the pairing pass marks it consumed
together with the enclosing `<b>…</b>` pair (the whole index interval of a
matched pair is pushed into `usedTags`), so it is absorbed into that element
— replaced by the widget, not decorated as orphan styled source. -/
theorem c7_orphan_tag_counterexample :
    searchClose tagsNested (str "c") (lineToAt docNested 4) 2 1 = none ∧
    (collectElements docNested tagsNested).used = [0, 1, 2] ∧
    htmlInlineDecos docNested tagsNested ⟨[⟨20, 21⟩], 0⟩ =
      [Deco.widget 0 12 (str "<b>x<c>y</b>")] := by
  refine ⟨rfl, rfl, rfl⟩

/-- C7 (amended): the decoration pass is total and every tag token the
pairing loop leaves unconsumed is styled as literal source, for every
document, token list and selection state; in particular `<b>unterminated`
yields one orphan-styled tag.  But not every unmatched open tag is left
unconsumed: one lying between a matched pair's tokens is marked used with
that pair and absorbed into its element. -/
theorem c7_orphan_tag_amended :
    ∀ (doc : Str) (tags : List TagInfo) (sel : Selection) (i : Nat) (tag : TagInfo),
      tags.get? i = some tag →
      (collectElements doc tags).used.contains i = false →
      Deco.mark htmlTagClass tag.start tag.stop ∈ htmlInlineDecos doc tags sel := by
  intro doc tags sel i tag hget hused
  simp only [htmlInlineDecos]
  refine List.mem_append_right _ ?_
  refine List.mem_map.mpr ⟨i, List.mem_filter.mpr ⟨?_, ?_⟩, ?_⟩
  · refine List.mem_range.mpr ?_
    by_contra hge
    push_neg at hge
    rw [List.get?_eq_none.mpr hge] at hget
    exact nomatch hget
  · simpa using hused
  · rw [List.get?_eq_getElem?] at hget
    simp [hget]

/-- C7 witness: the amended theorem applied at the `<b>unterminated`
example, whose single open tag the pairing loop leaves unconsumed. -/
theorem c7_orphan_tag_amended_witness :
    tagsOrphan.get? 0 = some ⟨0, 3, str "b", false, false⟩ ∧
    (collectElements docOrphan tagsOrphan).used.contains 0 = false ∧
    Deco.mark htmlTagClass 0 3 ∈ htmlInlineDecos docOrphan tagsOrphan ⟨[⟨0, 0⟩], 0⟩ :=
  ⟨rfl, rfl,
    c7_orphan_tag_amended docOrphan tagsOrphan ⟨[⟨0, 0⟩], 0⟩ 0
      ⟨0, 3, str "b", false, false⟩ rfl rfl⟩

/-- C10: the preview context's `sanitize` returns the HTML unchanged when
the sanitize option is off, and also server-side (no `window`) even with the
option on; the sanitizer runs only when the option is on and a window
exists. -/
theorem c10_sanitize_gating :
    ∀ (domPurify : Str → Str) (html : Str) (w : Bool),
      contextSanitize false w domPurify html = html ∧
      contextSanitize true false domPurify html = html ∧
      contextSanitize true true domPurify html = domPurify html := by
  intro domPurify html w
  exact ⟨rfl, rfl, rfl⟩

/-- C8 counterexample: a plugin that pushes a decoration and then throws —
its push is retained in the pass's output, so the throwing plugin's
contribution is not discarded (the result differs from the pass without the
plugin). -/
theorem c8_plugin_error_counterexample :
    (pushThenThrow.run []).2 = true ∧
    buildDecorationsModel [pushThenThrow] ≠ buildDecorationsModel [] := by
  exact ⟨rfl, by decide⟩

/-- Suppressing a plugin's exception flag does not move it during the stable
priority insertion. -/
theorem insertByPrio_map_suppress (p : DecoPlugin) (l : List DecoPlugin) :
    insertByPrio (suppressThrow p) (l.map suppressThrow) =
      (insertByPrio p l).map suppressThrow := by
  induction l with
  | nil => rfl
  | cons x xs ih =>
    by_cases h : p.decorationPriority ≤ x.decorationPriority
    · simp [insertByPrio, suppressThrow, h]
    · simp [insertByPrio, suppressThrow, h]
      simpa [suppressThrow] using ih

/-- Suppressing exception flags commutes with the stable priority sort. -/
theorem sortByPrio_map_suppress (l : List DecoPlugin) :
    sortByPrio (l.map suppressThrow) = (sortByPrio l).map suppressThrow := by
  induction l with
  | nil => rfl
  | cons x xs ih => simp [sortByPrio, ih, insertByPrio_map_suppress]

/-- The `try`/`catch` fold only reads the post-call array state, never the
exception flag. -/
theorem foldl_run_map_suppress (l : List DecoPlugin) (init : List Ann) :
    (l.map suppressThrow).foldl (fun s p => (p.run s).1) init =
      l.foldl (fun s p => (p.run s).1) init := by
  rw [List.foldl_map]
  rfl

/-- C8 (amended): the rebuild pass catches every plugin exception: its
result is unchanged if every plugin's throw is suppressed — the remaining
plugins still run, the pass completes, and no exception propagates; however
annotations a plugin pushed before throwing are retained, not discarded. -/
theorem c8_plugin_error_amended (ps : List DecoPlugin) :
    buildDecorationsModel (ps.map suppressThrow) = buildDecorationsModel ps := by
  unfold buildDecorationsModel
  rw [sortByPrio_map_suppress, foldl_run_map_suppress]

/-- If every plugin declines a node, the plugin scan yields the
"not handled" sentinel. -/
theorem findFirstRender_none (plugins : List PluginR) (n : PNode) (ch : Str)
    (h : ∀ p ∈ plugins, p n ch = none) : findFirstRender plugins n ch = none := by
  induction plugins with
  | nil => rfl
  | cons p rest ih =>
    have hp := h p (by simp)
    simp only [findFirstRender, hp]
    exact ih fun q hq => h q (by simp [hq])

/-- C5 counterexample: for a leaf node of an unhandled type whose text is
`<b>`, the static renderer emits the sliced text verbatim, which differs
from its HTML-escaped form — the fallback does not escape. -/
theorem c5_leaf_fallback_counterexample :
    renderNode [] (str "<b>") (.node (str "X") 0 3 []) = .str (str "<b>") ∧
    escapeHtml (sliceDoc (str "<b>") 0 3) ≠ sliceDoc (str "<b>") 0 3 := by
  exact ⟨rfl, by decide⟩

/-- C5 (amended): for every leaf node whose type no plugin handles and that
has no default renderer, the static renderer emits the node's literal sliced
document text unescaped (HTML special characters are not escaped on this
path; only gap text in `renderChildren` is escaped). -/
theorem c5_leaf_fallback_amended :
    ∀ (plugins : List PluginR) (doc name : Str) (start stop : Nat),
      (∀ p ∈ plugins,
        p (.node name start stop []) (renderChildrenList plugins doc start stop []) = none) →
      defaultRenderers name = none →
      renderNode plugins doc (.node name start stop []) = .str (sliceDoc doc start stop) := by
  intro plugins doc name start stop hp hd
  simp only [renderNode, findFirstRender_none _ _ _ hp, hd]

/-- C5 witness: the amended theorem applied at a concrete leaf. -/
theorem c5_leaf_fallback_amended_witness :
    defaultRenderers (str "X") = none ∧
    renderNode [] (str "ab") (.node (str "X") 0 2 []) = .str (sliceDoc (str "ab") 0 2) :=
  ⟨rfl, c5_leaf_fallback_amended [] (str "ab") (str "X") 0 2 (by simp) rfl⟩

/-- C1 counterexample: for the inline element spanning `<b>x<i>y</i>z</b>`
and a selection whose secondary range overlaps the element while the main
range does not, some selection range intersects the node's range, yet the
inline-HTML renderer hides the raw text behind a widget — its reveal
decision is not the all-ranges overlap boolean. -/
theorem c1_reveal_policy_counterexample :
    selectionOverlapsRange selSecondaryOverlap 0 17 = true ∧
    cursorInRange selSecondaryOverlap 0 17 = false ∧
    htmlInlineDecos docPaired tagsPaired selSecondaryOverlap =
      [Deco.widget 0 17 (str "<b>x<i>y</i>z</b>")] := by
  refine ⟨rfl, rfl, rfl⟩

/-- C1 (amended): each built-in interactive renderer derives its reveal
decision from a single overlap boolean, but not all compute it over all
selection ranges: the inline-HTML renderer and the list plugin's task
marker compute it from the main selection range only (`cursorInRange`),
while the inline-code renderer uses the all-ranges test
(`selectionOverlapsRange`); the main-range test implies the all-ranges
test, and the two coincide whenever the selection has a single range. -/
theorem c1_reveal_policy_amended :
    ∀ (tags : List TagInfo) (sel : Selection) (e : InlineElem)
      (codeMarks : List (Nat × Nat)) (doc : Str) (f t lineFrom lineTo : Nat),
      (Deco.widget e.start e.stop e.content ∈ htmlElemDecos tags sel e ↔
        cursorInRange sel e.start e.stop = false) ∧
      ((∃ content, Deco.widget f t content ∈ taskMarkerDecos doc sel f t lineFrom lineTo) ↔
        cursorInRange sel lineFrom lineTo = false) ∧
      (∀ m ∈ codeMarks,
        (Deco.mark (str "cm-draftly-code-mark") m.1 m.2 ∈
            codeInlineDecos sel e.start e.stop codeMarks ↔
          selectionOverlapsRange sel e.start e.stop = false)) ∧
      (sel.mainIdx < sel.ranges.length →
        cursorInRange sel e.start e.stop = true →
        selectionOverlapsRange sel e.start e.stop = true) ∧
      (sel.ranges.length = 1 → sel.mainIdx = 0 →
        cursorInRange sel e.start e.stop = selectionOverlapsRange sel e.start e.stop) := by
  intro tags sel e codeMarks doc f t lineFrom lineTo
  refine ⟨?_, ?_, ?_, ?_, ?_⟩
  · by_cases h : cursorInRange sel e.start e.stop
    · simp [htmlElemDecos, h]
    · simp [htmlElemDecos, h]
  · by_cases h : cursorInRange sel lineFrom lineTo
    · simp [taskMarkerDecos, h]
    · simp [taskMarkerDecos, h]
  · intro m hm
    have hne : Deco.mark (str "cm-draftly-code-mark") m.1 m.2 ≠
        Deco.mark (str "cm-draftly-code-inline") e.start e.stop := by
      intro habs
      injection habs with h1 h2 h3
      exact absurd h1 (by decide)
    by_cases h : selectionOverlapsRange sel e.start e.stop
    · simp only [codeInlineDecos, h, Bool.not_true, Bool.false_eq_true, if_false,
        List.append_nil, List.mem_singleton]
      exact ⟨fun habs => absurd habs hne, fun hfalse => nomatch hfalse⟩
    · have hb : selectionOverlapsRange sel e.start e.stop = false := by
        simpa using h
      simp only [codeInlineDecos, hb, Bool.not_false, if_true, List.mem_append,
        List.mem_singleton, List.mem_map]
      exact ⟨fun _ => trivial, fun _ => Or.inr ⟨m, hm, rfl⟩⟩
  · intro hlt hc
    have hmem : sel.main ∈ sel.ranges := by
      unfold Selection.main
      rw [List.getD_eq_getElem _ _ hlt]
      exact List.getElem_mem hlt
    unfold cursorInRange at hc
    unfold selectionOverlapsRange
    exact List.any_eq_true.mpr ⟨sel.main, hmem, hc⟩
  · intro hone hzero
    rcases List.length_eq_one.mp hone with ⟨r, hr⟩
    unfold cursorInRange selectionOverlapsRange Selection.main
    simp [hr, hzero]

/-- C1 witness: the amended theorem applied at the paired-tags example, a
single-range selection over it, and one backtick mark. -/
theorem c1_reveal_policy_amended_witness :
    (Deco.widget 0 17 (str "<b>x<i>y</i>z</b>") ∈
        htmlElemDecos tagsPaired ⟨[⟨5, 6⟩], 0⟩ ⟨0, 17, str "<b>x<i>y</i>z</b>"⟩ ↔
      cursorInRange ⟨[⟨5, 6⟩], 0⟩ 0 17 = false) ∧
    ((∃ content, Deco.widget 2 5 content ∈
        taskMarkerDecos (str "- [x] a") ⟨[⟨5, 6⟩], 0⟩ 2 5 0 7) ↔
      cursorInRange ⟨[⟨5, 6⟩], 0⟩ 0 7 = false) ∧
    selectionOverlapsRange ⟨[⟨5, 6⟩], 0⟩ 0 17 = true :=
  ⟨(c1_reveal_policy_amended tagsPaired ⟨[⟨5, 6⟩], 0⟩ ⟨0, 17, str "<b>x<i>y</i>z</b>"⟩ []
      (str "- [x] a") 2 5 0 7).1,
   (c1_reveal_policy_amended tagsPaired ⟨[⟨5, 6⟩], 0⟩ ⟨0, 17, str "<b>x<i>y</i>z</b>"⟩ []
      (str "- [x] a") 2 5 0 7).2.1,
   (c1_reveal_policy_amended tagsPaired ⟨[⟨5, 6⟩], 0⟩ ⟨0, 17, str "<b>x<i>y</i>z</b>"⟩ []
      (str "- [x] a") 2 5 0 7).2.2.2.1
     (by decide) (by decide)⟩

/-- C9 counterexample: with an async plugin configured — the Mermaid
plugin's `renderToHTML` is `async` (`mermaid-plugin.ts:345`) and sits in
`essentialPlugins` (`plugins/index.ts:33`) — `renderNode` returns the
plugin's pending Promise (`result !== null` accepts it), and `preview`
string-coerces it: the body is the `[object Promise]` placeholder, exactly
the output the claim excludes. -/
theorem c9_preview_wrapper_counterexample :
    PreviewRenderer_render (fun _ => .node (str "Document") 0 1 [])
        [asyncRenderPlugin] (str "x") = .promise ∧
    preview (fun _ => .node (str "Document") 0 1 []) [asyncRenderPlugin] (str "x")
        none none =
      str "<article class=\"draftly-preview\">\n[object Promise]</article>" := by
  refine ⟨rfl, rfl⟩

/-- C9 (amended): `preview` returns exactly one root element of the
configured wrapper tag carrying the configured class (for any non-empty
wrapper class), whose body is the JavaScript string-coercion of the
synchronous renderer's result: the document's HTML whenever the renderer
returns a string, but the `[object Promise]` placeholder when an async
plugin handles the root node. -/
theorem c9_preview_wrapper_amended :
    ∀ (parse : Str → PNode) (plugins : List PluginR) (markdown : Str)
      (wrapperClass wrapperTag : Option Str),
      wrapperClass.getD (str "draftly-preview") ≠ [] →
      (preview parse plugins markdown wrapperClass wrapperTag =
        ['<'] ++ wrapperTag.getD (str "article") ++
          (str " class=\"" ++ wrapperClass.getD (str "draftly-preview") ++ ['"']) ++
          ['>', '\n'] ++ jsToString (PreviewRenderer_render parse plugins markdown) ++
          ['<', '/'] ++ wrapperTag.getD (str "article") ++ ['>']) ∧
      (∀ html, PreviewRenderer_render parse plugins markdown = .str html →
        preview parse plugins markdown wrapperClass wrapperTag =
          ['<'] ++ wrapperTag.getD (str "article") ++
            (str " class=\"" ++ wrapperClass.getD (str "draftly-preview") ++ ['"']) ++
            ['>', '\n'] ++ html ++
            ['<', '/'] ++ wrapperTag.getD (str "article") ++ ['>']) := by
  intro parse plugins markdown wc wt h
  constructor
  · simp only [preview, if_pos h]
  · intro html hhtml
    simp only [preview, hhtml, jsToString, if_pos h]

/-- C9 witness: the amended theorem applied at a plugin-free configuration,
where the renderer returns a string and the body is the document's HTML. -/
theorem c9_preview_wrapper_amended_witness :
    (some (str "wrap") : Option Str).getD (str "draftly-preview") ≠ [] ∧
    PreviewRenderer_render (fun _ => .node (str "Document") 0 1 []) [] (str "x") =
      .str (str "x") ∧
    preview (fun _ => .node (str "Document") 0 1 []) [] (str "x") (some (str "wrap")) none =
      ['<'] ++ str "article" ++ (str " class=\"" ++ str "wrap" ++ ['"']) ++ ['>', '\n'] ++
        str "x" ++ ['<', '/'] ++ str "article" ++ ['>'] :=
  ⟨by decide, rfl,
    (c9_preview_wrapper_amended (fun _ => .node (str "Document") 0 1 []) [] (str "x")
      (some (str "wrap")) none (by decide)).2 (str "x") rfl⟩

end Draftly
